import Mathlib

/-!
Shallow embedding of the reconciliation core of
`src/bin/route_xdcdb-fos.py` (XSEDE/Discovery_Manage-XDCDB-Users):
the functions `Retrieve_Source` (lines 187-203) and `Store_Destination`
(lines 205-262), together with the record serialization and
fingerprinting they perform.

Modelling conventions:
* Python scalar values appearing in the records are modelled by `PyVal`
  (null, string, integer, boolean).
* Python dicts are modelled by insertion-ordered association lists; dict
  assignment `d[k] = v` overwrites in place or appends (`dbSet`).
* `hashlib.md5(s).digest()` is modelled as the serialized string itself:
  a collision-free idealization of the digest (equality of digests in the
  code corresponds to equality of the serialized byte strings here).
* `str(sdict)` (Python's rendering of a dict) is modelled by `reprDict`;
  the Python `repr` of a string is modelled as the string wrapped in
  single quotes, which matches Python for quote-free, backslash-free
  strings (the only ones the claims exercise).
* The Django store (`XSEDEFos.objects`) is external to `src/`; following
  the spec ("upsert-by-id with a fixed field set {parent id, description,
  external id, abbreviation, active-flag}") it is modelled as an
  association list from `field_of_science_id` to a record holding exactly
  the six model fields written by `update_or_create`.
* Data/integrity errors raised by the store on an upsert or a delete are
  external events; they are modelled by oracles `uerr` (returning, for a
  failing upsert, the exception type name and text used to build the
  error message) and `derr` (whether deleting a given id fails).
* A `KeyError` on a missing dict key is not modelled; lookups default to
  null (`getF`).  All theorems exercising those lookups carry hypotheses
  under which the keys are present, so the default is never reached.
* The upsert loop and the delete loop additionally record a trace of
  write events (`Ev`) so that ordering claims (upserts before deletes,
  fail-fast) are expressible; the counters mirror `MyUpdateStat`,
  `MyDeleteStat`, `MySkipStat` which `run` resets to zero before the call.
-/

/-- Python scalar values occurring in FOS records. -/
inductive PyVal : Type where
  | none : PyVal
  | str (s : String) : PyVal
  | int (n : Int) : PyVal
  | bool (b : Bool) : PyVal
deriving DecidableEq

/-- Python `str()` of a scalar value. -/
def pyStr : PyVal → String
  | PyVal.none => "None"
  | PyVal.str s => s
  | PyVal.int n => toString n
  | PyVal.bool true => "True"
  | PyVal.bool false => "False"

/-- Python `repr()` of a scalar value, as it appears inside `str(dict)`.
Strings are wrapped in single quotes (faithful for quote-free strings). -/
def reprVal : PyVal → String
  | PyVal.none => "None"
  | PyVal.str s => "'" ++ s ++ "'"
  | PyVal.int n => toString n
  | PyVal.bool true => "True"
  | PyVal.bool false => "False"

/-- A record: a Python dict from field name to scalar, in insertion order. -/
abbrev Rec : Type := List (String × PyVal)

/-- Lookup in an association list (first binding wins, like dict lookup). -/
def alookup {κ α : Type} [DecidableEq κ] (k : κ) : List (κ × α) → Option α
  | [] => Option.none
  | kv :: rest => if kv.1 = k then Option.some kv.2 else alookup k rest

/-- Field access `r[k]`; total, defaulting to null (see header note). -/
def getF (r : Rec) (k : String) : PyVal := (alookup k r).getD PyVal.none

/-- Dict assignment `d[k] = v`: overwrite the existing binding in place,
or append a new binding at the end (Python dict semantics). -/
def dbSet {κ α : Type} [DecidableEq κ] (k : κ) (v : α) :
    List (κ × α) → List (κ × α)
  | [] => [(k, v)]
  | kv :: rest => if kv.1 = k then (k, v) :: rest else kv :: dbSet k v rest

/-- Removal of the bindings for key `k` (the store's delete-by-id;
keys are unique in a well-formed store). -/
def dbDel {κ α : Type} [DecidableEq κ] (k : κ) :
    List (κ × α) → List (κ × α)
  | [] => []
  | kv :: rest => if kv.1 = k then dbDel k rest else kv :: dbDel k rest

/-- In-place update of the value of an existing field (dict item assignment
on a key known to exist). -/
def setField (r : Rec) (k : String) (v : PyVal) : Rec :=
  r.map (fun kv => if kv.1 = k then (k, v) else kv)

/-- ASCII lowercasing of one character, as Python's `str.lower` acts on
the ASCII field values the records hold. -/
def lowerChar (c : Char) : Char :=
  if 65 ≤ c.toNat ∧ c.toNat ≤ 90 then Char.ofNat (c.toNat + 32) else c

/-- Python's `str.lower` (modelled characterwise on the ASCII range). -/
def lowerStr (s : String) : String := ⟨s.data.map lowerChar⟩

/-- The duck-typed sentinel test of lines 201 and 218:
`isinstance(v, str) and v.lower() == 'none'`. -/
def isNoneStr : PyVal → Bool
  | PyVal.str s => lowerStr s == "none"
  | _ => false

/-- Normalization of one value: a case-insensitive "none" string becomes
null, everything else is unchanged. -/
def normVal (v : PyVal) : PyVal := if isNoneStr v then PyVal.none else v

/-- The loop of lines 217-219: normalize every field of a record. -/
def normalizeRec (r : Rec) : Rec := r.map (fun kv => (kv.1, normVal kv.2))

/-- Lexicographic comparison of character lists, as Python compares
strings (equal heads: continue; otherwise the smaller code point wins). -/
def lexLe : List Char → List Char → Bool
  | [], _ => true
  | _ :: _, [] => false
  | a :: as, b :: bs =>
    if a < b then true else if b < a then false else lexLe as bs

/-- Ordering of dict items by field name, as `sorted(xdict.items())`
orders them (field names are distinct in a dict, so the name decides). -/
def keyLe (a b : String × PyVal) : Prop := lexLe a.1.data b.1.data = true

instance : DecidableRel keyLe := fun _ _ =>
  inferInstanceAs (Decidable (_ = true))

/-- The `sorted(xdict.items())` of lines 220 and 226. -/
def sortRec (r : Rec) : Rec := List.insertionSort keyLe r

/-- Python's `str()` of the sorted dict: `{'k1': v1, 'k2': v2, ...}`. -/
def reprDict (l : Rec) : String :=
  "\x7b" ++
    String.intercalate ", "
      (l.map (fun kv => "'" ++ kv.1 ++ "': " ++ reprVal kv.2)) ++ "\x7d"

/-- Serialization of a record as in lines 220-221 / 226-227: sort the
fields by name, render the dict as text (then encode as UTF-8 bytes). -/
def serializeRec (r : Rec) : String := reprDict (sortRec r)

/-- The md5 digest of the serialization (md5 modelled as injective:
digest equality stands for equality of the serialized bytes). -/
def fingerprint (r : Rec) : String := serializeRec r

/-- The destination-state digests of lines 212-223: for every stored
record, the digest of its none-normalized field dict (`model_to_dict`
returns the six model fields in declaration order, i.e. the record as
stored). -/
def curDigest (db : List (PyVal × Rec)) : List (PyVal × String) :=
  db.map (fun kv => (kv.1, fingerprint (normalizeRec kv.2)))

/-- The skip test of line 228: the digest of the (raw, un-normalized)
source record equals the stored digest for that id, `''` when absent. -/
def skipB (curdg : List (PyVal × String)) (it : PyVal × Rec) : Prop :=
  fingerprint it.2 = ((alookup it.1 curdg).getD "")

instance (curdg : List (PyVal × String)) (it : PyVal × Rec) :
    Decidable (skipB curdg it) := String.decEq _ _

/-- The error message of lines 247-248:
`'{} saving ID={}: {}'.format(type(e).__name__, nitem['field_of_science_id'], str(e))`. -/
def failMsg (ty : String) (nitem : Rec) (etext : String) : String :=
  ty ++ " saving ID=" ++ pyStr (getF nitem "field_of_science_id") ++ ": " ++ etext

/-- The record written by `update_or_create` (lines 232-240): the id from
the source record plus the five `defaults`, three of them passed through
`str()` exactly as in the code. -/
def upsertRecord (nitem : Rec) : Rec :=
  [("field_of_science_id", getF nitem "field_of_science_id"),
   ("parent_field_of_science_id", getF nitem "parent_field_of_science_id"),
   ("field_of_science_desc", PyVal.str (pyStr (getF nitem "field_of_science_desc"))),
   ("fos_nsf_id", getF nitem "fos_nsf_id"),
   ("fos_nsf_abbrev", PyVal.str (pyStr (getF nitem "fos_nsf_abbrev"))),
   ("is_active", PyVal.str (pyStr (getF nitem "is_active")))]

/-- Write events, recorded so ordering properties are expressible. -/
inductive Ev : Type where
  | wskip (id : PyVal) : Ev
  | wupsert (id : PyVal) : Ev
  | wfail (id : PyVal) : Ev
  | wdelete (id : PyVal) : Ev
  | wdelfail (id : PyVal) : Ev
deriving DecidableEq

/-- Result of the upsert loop (lines 224-250). -/
structure UpRes : Type where
  db : List (PyVal × Rec)
  u : Nat
  s : Nat
  tr : List Ev
  err : Option String
deriving DecidableEq

/-- The upsert loop of lines 224-250: for each source item in snapshot
order, either skip (matching digest), or upsert; a `DataError` or
`IntegrityError` (oracle `uerr`) stops the loop and produces the error
message of lines 247-248. -/
def upsertPhase (uerr : Rec → Option (String × String))
    (curdg : List (PyVal × String)) :
    List (PyVal × Rec) → List (PyVal × Rec) → UpRes
  | [], db => ⟨db, 0, 0, [], Option.none⟩
  | (k, nitem) :: rest, db =>
    if skipB curdg (k, nitem) then
      let r := upsertPhase uerr curdg rest db
      ⟨r.db, r.u, r.s + 1, Ev.wskip k :: r.tr, r.err⟩
    else
      match uerr nitem with
      | Option.some (ty, etext) =>
        ⟨db, 0, 0, [Ev.wfail (getF nitem "field_of_science_id")],
         Option.some (failMsg ty nitem etext)⟩
      | Option.none =>
        let r := upsertPhase uerr curdg rest
          (dbSet (getF nitem "field_of_science_id") (upsertRecord nitem) db)
        ⟨r.db, r.u + 1, r.s, Ev.wupsert (getF nitem "field_of_science_id") :: r.tr,
         r.err⟩

/-- Result of the delete loop (lines 252-261). -/
structure DelRes : Type where
  db : List (PyVal × Rec)
  d : Nat
  tr : List Ev
deriving DecidableEq

/-- The delete loop of lines 252-261: every id loaded at the start of the
run (`self.cur`) that is not a key of the snapshot is deleted; a
`DataError`/`IntegrityError` (oracle `derr`) is logged and the loop
continues. -/
def deletePhase (derr : PyVal → Bool) (newKeys : List PyVal) :
    List PyVal → List (PyVal × Rec) → DelRes
  | [], db => ⟨db, 0, []⟩
  | cur_id :: rest, db =>
    if cur_id ∈ newKeys then deletePhase derr newKeys rest db
    else if derr cur_id then
      let r := deletePhase derr newKeys rest db
      ⟨r.db, r.d, Ev.wdelfail cur_id :: r.tr⟩
    else
      let r := deletePhase derr newKeys rest (dbDel cur_id db)
      ⟨r.db, r.d + 1, Ev.wdelete cur_id :: r.tr⟩

/-- Result of `Store_Destination`: the final store, the returned pair
(success flag, message), the three counters and the write trace. -/
structure SDResult : Type where
  db : List (PyVal × Rec)
  ok : Bool
  msg : String
  updates : Nat
  deletes : Nat
  skips : Nat
  tr : List Ev
deriving DecidableEq

/-- `Store_Destination` (lines 205-262): load the destination state and
its digests, run the upsert loop over the snapshot, then — only if no
upsert failed — run the delete loop, and return `(True, '')`; on an
upsert failure return `(False, msg)` immediately. -/
def Store_Destination (uerr : Rec → Option (String × String))
    (derr : PyVal → Bool) (new_items : List (PyVal × Rec))
    (db : List (PyVal × Rec)) : SDResult :=
  match (upsertPhase uerr (curDigest db) new_items db).err with
  | Option.some m =>
    ⟨(upsertPhase uerr (curDigest db) new_items db).db, false, m,
     (upsertPhase uerr (curDigest db) new_items db).u, 0,
     (upsertPhase uerr (curDigest db) new_items db).s,
     (upsertPhase uerr (curDigest db) new_items db).tr⟩
  | Option.none =>
    ⟨(deletePhase derr (new_items.map Prod.fst) (db.map Prod.fst)
        (upsertPhase uerr (curDigest db) new_items db).db).db, true, "",
     (upsertPhase uerr (curDigest db) new_items db).u,
     (deletePhase derr (new_items.map Prod.fst) (db.map Prod.fst)
        (upsertPhase uerr (curDigest db) new_items db).db).d,
     (upsertPhase uerr (curDigest db) new_items db).s,
     (upsertPhase uerr (curDigest db) new_items db).tr ++
       (deletePhase derr (new_items.map Prod.fst) (db.map Prod.fst)
          (upsertPhase uerr (curDigest db) new_items db).db).tr⟩

/-- `dict(zip(COLS, row))` of line 197 (`zip` truncates at the shorter
sequence, in Python as here). -/
def rowDict (cols : List String) (row : List PyVal) : Rec := cols.zip row

/-- The snapshot key of line 198: `rowdict['field_of_science_id']`. -/
def keyOf (cols : List String) (row : List PyVal) : PyVal :=
  getF (rowDict cols row) "field_of_science_id"

/-- Lines 200-202: if the row's `fos_nsf_abbrev` is a case-insensitive
"none" string, replace it by null; no other field is touched. -/
def normAbbrev (r : Rec) : Rec :=
  match alookup "fos_nsf_abbrev" r with
  | Option.some v =>
    if isNoneStr v then setField r "fos_nsf_abbrev" PyVal.none else r
  | Option.none => r

/-- `Retrieve_Source` (lines 187-203): fold the result rows into a dict
keyed by `field_of_science_id` (a later row with the same id overwrites
the earlier one), normalizing only the `fos_nsf_abbrev` field. -/
def Retrieve_Source (cols : List String) (rows : List (List PyVal)) :
    List (PyVal × Rec) :=
  rows.foldl
    (fun DATA row => dbSet (keyOf cols row) (normAbbrev (rowDict cols row)) DATA)
    []

/-- A snapshot is well-keyed when every record's `field_of_science_id`
field is its dict key, as `Retrieve_Source` guarantees. -/
def WellKeyed (items : List (PyVal × Rec)) : Prop :=
  ∀ it ∈ items, getF it.2 "field_of_science_id" = it.1

instance (items : List (PyVal × Rec)) : Decidable (WellKeyed items) :=
  inferInstanceAs (Decidable (∀ it ∈ items, getF it.2 "field_of_science_id" = it.1))

/-- The claim's skip condition: the destination already holds the id and
its stored (normalized) fingerprint equals the source record's. -/
def DestHolds (db : List (PyVal × Rec)) (it : PyVal × Rec) : Prop :=
  match alookup it.1 db with
  | Option.some r => fingerprint (normalizeRec r) = fingerprint it.2
  | Option.none => False

instance (db : List (PyVal × Rec)) (it : PyVal × Rec) :
    Decidable (DestHolds db it) := by
  unfold DestHolds
  cases alookup it.1 db with
  | none => exact isFalse id
  | some r => exact String.decEq _ _

/-! ### Association-list lemmas -/

theorem alookup_nil {κ α : Type} [DecidableEq κ] (k : κ) :
    alookup k ([] : List (κ × α)) = Option.none := rfl

theorem alookup_cons {κ α : Type} [DecidableEq κ] (k : κ) (kv : κ × α)
    (l : List (κ × α)) :
    alookup k (kv :: l) =
      if kv.1 = k then Option.some kv.2 else alookup k l := rfl

theorem alookup_eq_none_iff {κ α : Type} [DecidableEq κ] (k : κ)
    (l : List (κ × α)) : alookup k l = Option.none ↔ k ∉ l.map Prod.fst := by
  induction l with
  | nil => simp [alookup]
  | cons kv rest ih =>
    by_cases h : kv.1 = k
    · simp [alookup_cons, h]
    · have hne : ¬ k = kv.1 := fun he => h he.symm
      simp [alookup_cons, h, ih, hne]

theorem mem_of_alookup_eq_some {κ α : Type} [DecidableEq κ] {k : κ} {v : α}
    {l : List (κ × α)} (h : alookup k l = Option.some v) : (k, v) ∈ l := by
  induction l with
  | nil => simp [alookup] at h
  | cons kv rest ih =>
    by_cases hk : kv.1 = k
    · rw [alookup_cons, if_pos hk] at h
      have hv : kv.2 = v := by simpa using h
      have hkv : kv = (k, v) := by
        cases kv
        simp only at hk hv
        rw [hk, hv]
      rw [← hkv]
      exact List.mem_cons_self kv rest
    · rw [alookup_cons, if_neg hk] at h
      exact List.mem_cons_of_mem _ (ih h)

theorem alookup_isSome_iff {κ α : Type} [DecidableEq κ] (k : κ)
    (l : List (κ × α)) :
    (alookup k l).isSome = true ↔ k ∈ l.map Prod.fst := by
  rcases h : alookup k l with _ | v
  · simp only [Option.isSome_none, Bool.false_eq_true, false_iff]
    exact (alookup_eq_none_iff k l).mp h
  · simp only [Option.isSome_some, true_iff]
    exact List.mem_map.mpr ⟨(k, v), mem_of_alookup_eq_some h, rfl⟩

theorem alookup_eq_some_of_mem {κ α : Type} [DecidableEq κ] {k : κ} {v : α}
    {l : List (κ × α)} (hnd : (l.map Prod.fst).Nodup) (h : (k, v) ∈ l) :
    alookup k l = Option.some v := by
  induction l with
  | nil => simp at h
  | cons kv rest ih =>
    simp only [List.map_cons, List.nodup_cons] at hnd
    rcases List.mem_cons.mp h with h' | h'
    · rw [← h']
      simp [alookup_cons]
    · have hk : ¬ kv.1 = k := by
        intro he
        exact hnd.1 (he ▸ (List.mem_map.mpr ⟨(k, v), h', rfl⟩))
      rw [alookup_cons, if_neg hk]
      exact ih hnd.2 h'

theorem alookup_perm {κ α : Type} [DecidableEq κ] {l₁ l₂ : List (κ × α)}
    (hnd : (l₁.map Prod.fst).Nodup) (h : l₁.Perm l₂) (k : κ) :
    alookup k l₁ = alookup k l₂ := by
  have hnd₂ : (l₂.map Prod.fst).Nodup := ((h.map Prod.fst).nodup_iff).mp hnd
  rcases hv : alookup k l₁ with _ | v
  · rcases hv₂ : alookup k l₂ with _ | v₂
    · rfl
    · have hm := mem_of_alookup_eq_some hv₂
      have hmem : k ∈ l₁.map Prod.fst :=
        List.mem_map.mpr ⟨(k, v₂), h.symm.subset hm, rfl⟩
      exact absurd hmem ((alookup_eq_none_iff k l₁).mp hv)
  · exact (alookup_eq_some_of_mem hnd₂ (h.subset (mem_of_alookup_eq_some hv))).symm

theorem alookup_dbSet_self {κ α : Type} [DecidableEq κ] (k : κ) (v : α)
    (l : List (κ × α)) : alookup k (dbSet k v l) = Option.some v := by
  induction l with
  | nil => simp [dbSet, alookup]
  | cons kv rest ih =>
    by_cases h : kv.1 = k
    · simp [dbSet, h, alookup_cons]
    · simp [dbSet, h, alookup_cons, ih]

theorem alookup_dbSet_ne {κ α : Type} [DecidableEq κ] {k k' : κ} (v : α)
    (l : List (κ × α)) (h : k' ≠ k) :
    alookup k' (dbSet k v l) = alookup k' l := by
  have hne : ¬ k = k' := fun he => h he.symm
  induction l with
  | nil => simp [dbSet, alookup, hne]
  | cons kv rest ih =>
    by_cases hk : kv.1 = k
    · have hk' : ¬ kv.1 = k' := fun he => h (hk ▸ he ▸ rfl)
      rw [show dbSet k v (kv :: rest) = (k, v) :: rest from by simp [dbSet, hk]]
      rw [alookup_cons, alookup_cons, if_neg hne, if_neg hk']
    · rw [show dbSet k v (kv :: rest) = kv :: dbSet k v rest from by
        simp [dbSet, hk]]
      rw [alookup_cons, alookup_cons, ih]

theorem mem_keys_dbSet {κ α : Type} [DecidableEq κ] (a k : κ) (v : α)
    (l : List (κ × α)) :
    a ∈ (dbSet k v l).map Prod.fst ↔ a ∈ l.map Prod.fst ∨ a = k := by
  induction l with
  | nil => simp [dbSet, eq_comm]
  | cons kv rest ih =>
    by_cases h : kv.1 = k
    · rw [show dbSet k v (kv :: rest) = (k, v) :: rest from by simp [dbSet, h]]
      simp [h, eq_comm]
      tauto
    · rw [show dbSet k v (kv :: rest) = kv :: dbSet k v rest from by
        simp [dbSet, h]]
      simp [ih]
      tauto

theorem nodup_keys_dbSet {κ α : Type} [DecidableEq κ] (k : κ) (v : α)
    {l : List (κ × α)} (hnd : (l.map Prod.fst).Nodup) :
    ((dbSet k v l).map Prod.fst).Nodup := by
  induction l with
  | nil => simp [dbSet]
  | cons kv rest ih =>
    simp only [List.map_cons, List.nodup_cons] at hnd
    by_cases h : kv.1 = k
    · rw [show dbSet k v (kv :: rest) = (k, v) :: rest from by simp [dbSet, h]]
      simp only [List.map_cons, List.nodup_cons]
      exact ⟨h ▸ hnd.1, hnd.2⟩
    · rw [show dbSet k v (kv :: rest) = kv :: dbSet k v rest from by
        simp [dbSet, h]]
      simp only [List.map_cons, List.nodup_cons]
      constructor
      · intro hm
        rcases (mem_keys_dbSet kv.1 k v rest).mp hm with hm' | hm'
        · exact hnd.1 hm'
        · exact h hm'
      · exact ih hnd.2

theorem alookup_dbDel_self {κ α : Type} [DecidableEq κ] (k : κ)
    (l : List (κ × α)) : alookup k (dbDel k l) = Option.none := by
  induction l with
  | nil => simp [dbDel, alookup]
  | cons kv rest ih =>
    by_cases h : kv.1 = k
    · simp [dbDel, h, ih]
    · simp [dbDel, h, alookup_cons, ih]

theorem alookup_dbDel_ne {κ α : Type} [DecidableEq κ] {k k' : κ}
    (l : List (κ × α)) (h : k' ≠ k) :
    alookup k' (dbDel k l) = alookup k' l := by
  induction l with
  | nil => simp [dbDel]
  | cons kv rest ih =>
    by_cases hk : kv.1 = k
    · have hk' : ¬ kv.1 = k' := fun he => h (he ▸ hk)
      rw [show dbDel k (kv :: rest) = dbDel k rest from by simp [dbDel, hk]]
      rw [alookup_cons, if_neg hk', ih]
    · rw [show dbDel k (kv :: rest) = kv :: dbDel k rest from by
        simp [dbDel, hk]]
      rw [alookup_cons, alookup_cons, ih]

theorem mem_keys_dbDel {κ α : Type} [DecidableEq κ] (a k : κ)
    (l : List (κ × α)) :
    a ∈ (dbDel k l).map Prod.fst ↔ a ∈ l.map Prod.fst ∧ a ≠ k := by
  induction l with
  | nil => simp [dbDel]
  | cons kv rest ih =>
    by_cases h : kv.1 = k
    · rw [show dbDel k (kv :: rest) = dbDel k rest from by simp [dbDel, h]]
      rw [ih]
      subst h
      simp
      tauto
    · rw [show dbDel k (kv :: rest) = kv :: dbDel k rest from by
        simp [dbDel, h]]
      simp [ih]
      constructor
      · rintro (h' | ⟨h1, h2⟩)
        · exact ⟨Or.inl h', fun he => h (h' ▸ he ▸ rfl)⟩
        · exact ⟨Or.inr h1, h2⟩
      · rintro ⟨h1 | h1, h2⟩
        · exact Or.inl h1
        · exact Or.inr ⟨h1, h2⟩

theorem nodup_keys_dbDel {κ α : Type} [DecidableEq κ] (k : κ)
    {l : List (κ × α)} (hnd : (l.map Prod.fst).Nodup) :
    ((dbDel k l).map Prod.fst).Nodup := by
  induction l with
  | nil => simp [dbDel]
  | cons kv rest ih =>
    simp only [List.map_cons, List.nodup_cons] at hnd
    by_cases h : kv.1 = k
    · rw [show dbDel k (kv :: rest) = dbDel k rest from by simp [dbDel, h]]
      exact ih hnd.2
    · rw [show dbDel k (kv :: rest) = kv :: dbDel k rest from by
        simp [dbDel, h]]
      simp only [List.map_cons, List.nodup_cons]
      exact ⟨fun hm => hnd.1 ((mem_keys_dbDel kv.1 k rest).mp hm).1, ih hnd.2⟩

/-! ### Ordering and fingerprint lemmas -/

theorem lexLe_cons_iff (a b : Char) (as bs : List Char) :
    lexLe (a :: as) (b :: bs) = true ↔
      a < b ∨ (a = b ∧ lexLe as bs = true) := by
  rcases lt_trichotomy a b with h | h | h
  · simp [lexLe, h]
  · subst h
    simp [lexLe, lt_irrefl]
  · have hna : ¬ a < b := asymm h
    have hne : a ≠ b := ne_of_gt h
    simp [lexLe, hna, h, hne]

theorem lexLe_total (xs ys : List Char) :
    lexLe xs ys = true ∨ lexLe ys xs = true := by
  induction xs generalizing ys with
  | nil => left; rfl
  | cons a as ih =>
    cases ys with
    | nil => right; rfl
    | cons b bs =>
      rcases lt_trichotomy a b with h | h | h
      · left
        exact (lexLe_cons_iff a b as bs).mpr (Or.inl h)
      · subst h
        rcases ih bs with h' | h'
        · left
          exact (lexLe_cons_iff a a as bs).mpr (Or.inr ⟨rfl, h'⟩)
        · right
          exact (lexLe_cons_iff a a bs as).mpr (Or.inr ⟨rfl, h'⟩)
      · right
        exact (lexLe_cons_iff b a bs as).mpr (Or.inl h)

theorem lexLe_trans {xs ys zs : List Char} (h1 : lexLe xs ys = true)
    (h2 : lexLe ys zs = true) : lexLe xs zs = true := by
  induction xs generalizing ys zs with
  | nil => rfl
  | cons a as ih =>
    cases ys with
    | nil => simp [lexLe] at h1
    | cons b bs =>
      cases zs with
      | nil => simp [lexLe] at h2
      | cons c cs =>
        rcases (lexLe_cons_iff a b as bs).mp h1 with hab | ⟨hab, hab'⟩
        · rcases (lexLe_cons_iff b c bs cs).mp h2 with hbc | ⟨hbc, _⟩
          · exact (lexLe_cons_iff a c as cs).mpr (Or.inl (lt_trans hab hbc))
          · exact (lexLe_cons_iff a c as cs).mpr (Or.inl (hbc ▸ hab))
        · rcases (lexLe_cons_iff b c bs cs).mp h2 with hbc | ⟨hbc, hbc'⟩
          · exact (lexLe_cons_iff a c as cs).mpr (Or.inl (hab ▸ hbc))
          · exact (lexLe_cons_iff a c as cs).mpr
              (Or.inr ⟨hab.trans hbc, ih hab' hbc'⟩)

theorem lexLe_antisymm {xs ys : List Char} (h1 : lexLe xs ys = true)
    (h2 : lexLe ys xs = true) : xs = ys := by
  induction xs generalizing ys with
  | nil =>
    cases ys with
    | nil => rfl
    | cons b bs => simp [lexLe] at h2
  | cons a as ih =>
    cases ys with
    | nil => simp [lexLe] at h1
    | cons b bs =>
      rcases (lexLe_cons_iff a b as bs).mp h1 with hab | ⟨hab, hab'⟩
      · rcases (lexLe_cons_iff b a bs as).mp h2 with hba | ⟨hba, _⟩
        · exact absurd hba (asymm hab)
        · exact absurd hab (hba ▸ lt_irrefl b)
      · rcases (lexLe_cons_iff b a bs as).mp h2 with hba | ⟨_, hba'⟩
        · exact absurd hba (hab ▸ lt_irrefl a)
        · rw [hab, ih hab' hba']

instance : IsTotal (String × PyVal) keyLe :=
  ⟨fun a b => lexLe_total a.1.data b.1.data⟩

instance : IsTrans (String × PyVal) keyLe :=
  ⟨fun _ _ _ h1 h2 => lexLe_trans h1 h2⟩

/-- Strict version of the item ordering: the names differ.  Two sorted,
duplicate-free field lists are unique up to this relation. -/
def keyLt (a b : String × PyVal) : Prop := keyLe a b ∧ a.1 ≠ b.1

theorem string_data_inj {s t : String} (h : s.data = t.data) : s = t := by
  cases s
  cases t
  simp only at h
  rw [h]

instance : IsAntisymm (String × PyVal) keyLt :=
  ⟨fun a b h1 h2 => absurd (string_data_inj (lexLe_antisymm h1.1 h2.1)) h1.2⟩

theorem sortRec_sorted (r : Rec) : List.Sorted keyLe (sortRec r) :=
  List.sorted_insertionSort keyLe r

theorem sortRec_perm (r : Rec) : (sortRec r).Perm r :=
  List.perm_insertionSort keyLe r

theorem sortRec_eq_of_perm {r₁ r₂ : Rec} (hnd : (r₁.map Prod.fst).Nodup)
    (h : r₁.Perm r₂) : sortRec r₁ = sortRec r₂ := by
  have hp : (sortRec r₁).Perm (sortRec r₂) :=
    (sortRec_perm r₁).trans (h.trans (sortRec_perm r₂).symm)
  have hnd₁ : ((sortRec r₁).map Prod.fst).Nodup :=
    (((sortRec_perm r₁).map Prod.fst).nodup_iff).mpr hnd
  have hnd₂ : ((sortRec r₂).map Prod.fst).Nodup :=
    (((sortRec_perm r₂).map Prod.fst).nodup_iff).mpr
      (((h.map Prod.fst).nodup_iff).mp hnd)
  have hs₁ : List.Sorted keyLt (sortRec r₁) :=
    (sortRec_sorted r₁).and (List.pairwise_map.mp hnd₁)
  have hs₂ : List.Sorted keyLt (sortRec r₂) :=
    (sortRec_sorted r₂).and (List.pairwise_map.mp hnd₂)
  exact List.eq_of_perm_of_sorted hp hs₁ hs₂

theorem fingerprint_perm {r₁ r₂ : Rec} (hnd : (r₁.map Prod.fst).Nodup)
    (h : r₁.Perm r₂) : fingerprint r₁ = fingerprint r₂ := by
  unfold fingerprint serializeRec
  rw [sortRec_eq_of_perm hnd h]

theorem fingerprint_ne_empty (r : Rec) : fingerprint r ≠ "" := by
  unfold fingerprint serializeRec reprDict
  intro h
  have h' := congrArg String.length h
  rw [String.length_append, String.length_append] at h'
  have h1 : ("\x7b" : String).length = 1 := rfl
  have h2 : ("\x7d" : String).length = 1 := rfl
  have h0 : ("" : String).length = 0 := rfl
  rw [h1, h2, h0] at h'
  omega

/-! ### Digest-table and skip-condition lemmas -/

theorem alookup_curDigest (db : List (PyVal × Rec)) (k : PyVal) :
    alookup k (curDigest db) =
      (alookup k db).map (fun r => fingerprint (normalizeRec r)) := by
  induction db with
  | nil => rfl
  | cons kv rest ih =>
    by_cases h : kv.1 = k
    · simp [curDigest, alookup_cons, h]
    · simpa [curDigest, alookup_cons, h] using ih

theorem skipB_iff_DestHolds (db : List (PyVal × Rec)) (it : PyVal × Rec) :
    skipB (curDigest db) it ↔ DestHolds db it := by
  unfold skipB DestHolds
  rw [alookup_curDigest]
  rcases alookup it.1 db with _ | r
  · simp only [Option.map_none', Option.getD_none]
    exact ⟨fun h => absurd h (fingerprint_ne_empty it.2), False.elim⟩
  · simp only [Option.map_some', Option.getD_some]
    exact eq_comm

/-! ### Upsert-loop lemmas -/

theorem upsertPhase_nil (uerr : Rec → Option (String × String))
    (curdg : List (PyVal × String)) (db : List (PyVal × Rec)) :
    upsertPhase uerr curdg [] db = ⟨db, 0, 0, [], Option.none⟩ := rfl

theorem upsertPhase_cons_skip (uerr : Rec → Option (String × String))
    (curdg : List (PyVal × String)) {k : PyVal} {nitem : Rec}
    (rest : List (PyVal × Rec)) (db : List (PyVal × Rec))
    (h : skipB curdg (k, nitem)) :
    upsertPhase uerr curdg ((k, nitem) :: rest) db =
      ⟨(upsertPhase uerr curdg rest db).db,
       (upsertPhase uerr curdg rest db).u,
       (upsertPhase uerr curdg rest db).s + 1,
       Ev.wskip k :: (upsertPhase uerr curdg rest db).tr,
       (upsertPhase uerr curdg rest db).err⟩ := by
  rw [upsertPhase, if_pos h]

theorem upsertPhase_cons_fail (uerr : Rec → Option (String × String))
    (curdg : List (PyVal × String)) {k : PyVal} {nitem : Rec}
    (rest : List (PyVal × Rec)) (db : List (PyVal × Rec))
    (h : ¬ skipB curdg (k, nitem)) {ty etext : String}
    (he : uerr nitem = Option.some (ty, etext)) :
    upsertPhase uerr curdg ((k, nitem) :: rest) db =
      ⟨db, 0, 0, [Ev.wfail (getF nitem "field_of_science_id")],
       Option.some (failMsg ty nitem etext)⟩ := by
  rw [upsertPhase, if_neg h, he]

theorem upsertPhase_cons_write (uerr : Rec → Option (String × String))
    (curdg : List (PyVal × String)) {k : PyVal} {nitem : Rec}
    (rest : List (PyVal × Rec)) (db : List (PyVal × Rec))
    (h : ¬ skipB curdg (k, nitem)) (he : uerr nitem = Option.none) :
    upsertPhase uerr curdg ((k, nitem) :: rest) db =
      ⟨(upsertPhase uerr curdg rest
          (dbSet (getF nitem "field_of_science_id") (upsertRecord nitem) db)).db,
       (upsertPhase uerr curdg rest
          (dbSet (getF nitem "field_of_science_id") (upsertRecord nitem) db)).u + 1,
       (upsertPhase uerr curdg rest
          (dbSet (getF nitem "field_of_science_id") (upsertRecord nitem) db)).s,
       Ev.wupsert (getF nitem "field_of_science_id") ::
         (upsertPhase uerr curdg rest
            (dbSet (getF nitem "field_of_science_id") (upsertRecord nitem) db)).tr,
       (upsertPhase uerr curdg rest
          (dbSet (getF nitem "field_of_science_id") (upsertRecord nitem) db)).err⟩ := by
  rw [upsertPhase, if_neg h, he]

theorem upsertPhase_alookup_not_mem (uerr : Rec → Option (String × String))
    (curdg : List (PyVal × String)) {items : List (PyVal × Rec)}
    (db : List (PyVal × Rec)) (hwk : WellKeyed items) {k : PyVal}
    (hk : k ∉ items.map Prod.fst) :
    alookup k (upsertPhase uerr curdg items db).db = alookup k db := by
  induction items generalizing db with
  | nil => rfl
  | cons it rest ih =>
    obtain ⟨k₀, n₀⟩ := it
    have hk₀ : k ≠ k₀ := by
      intro he
      exact hk (by simp [he])
    have hkrest : k ∉ rest.map Prod.fst := fun hm => hk (by simp [hm])
    have hwkrest : WellKeyed rest := fun it hm => hwk it (List.mem_cons_of_mem _ hm)
    have hid : getF n₀ "field_of_science_id" = k₀ :=
      hwk (k₀, n₀) (List.mem_cons_self _ _)
    by_cases hs : skipB curdg (k₀, n₀)
    · rw [upsertPhase_cons_skip uerr curdg rest db hs]
      exact ih db hwkrest hkrest
    · rcases he : uerr n₀ with _ | tye
      · rw [upsertPhase_cons_write uerr curdg rest db hs he]
        rw [ih _ hwkrest hkrest]
        rw [hid]
        exact alookup_dbSet_ne _ db hk₀
      · obtain ⟨ty, etext⟩ := tye
        rw [upsertPhase_cons_fail uerr curdg rest db hs he]

theorem upsertPhase_err_eq_none (uerr : Rec → Option (String × String))
    (curdg : List (PyVal × String)) {items : List (PyVal × Rec)}
    (db : List (PyVal × Rec))
    (hne : ∀ it ∈ items, skipB curdg it ∨ uerr it.2 = Option.none) :
    (upsertPhase uerr curdg items db).err = Option.none := by
  induction items generalizing db with
  | nil => rfl
  | cons it rest ih =>
    obtain ⟨k₀, n₀⟩ := it
    have hrest : ∀ it ∈ rest, skipB curdg it ∨ uerr it.2 = Option.none :=
      fun it hm => hne it (List.mem_cons_of_mem _ hm)
    by_cases hs : skipB curdg (k₀, n₀)
    · rw [upsertPhase_cons_skip uerr curdg rest db hs]
      exact ih db hrest
    · rcases hne (k₀, n₀) (List.mem_cons_self _ _) with h | h
      · exact absurd h hs
      · rw [upsertPhase_cons_write uerr curdg rest db hs h]
        exact ih _ hrest

theorem upsertPhase_alookup_skip (uerr : Rec → Option (String × String))
    (curdg : List (PyVal × String)) {items : List (PyVal × Rec)}
    (db : List (PyVal × Rec)) (hwk : WellKeyed items)
    (hnd : (items.map Prod.fst).Nodup) {k : PyVal} {nitem : Rec}
    (hmem : (k, nitem) ∈ items)
    (hok : (upsertPhase uerr curdg items db).err = Option.none)
    (hs : skipB curdg (k, nitem)) :
    alookup k (upsertPhase uerr curdg items db).db = alookup k db := by
  induction items generalizing db with
  | nil => simp at hmem
  | cons it rest ih =>
    obtain ⟨k₀, n₀⟩ := it
    simp only [List.map_cons, List.nodup_cons] at hnd
    have hwkrest : WellKeyed rest := fun it hm => hwk it (List.mem_cons_of_mem _ hm)
    have hid : getF n₀ "field_of_science_id" = k₀ :=
      hwk (k₀, n₀) (List.mem_cons_self _ _)
    rcases List.mem_cons.mp hmem with hhead | hrest
    · injection hhead with hk hn
      subst hk
      subst hn
      have hknotrest : k ∉ rest.map Prod.fst := hnd.1
      by_cases hs₀ : skipB curdg (k, nitem)
      · rw [upsertPhase_cons_skip uerr curdg rest db hs₀]
        exact upsertPhase_alookup_not_mem uerr curdg db hwkrest hknotrest
      · exact absurd hs hs₀
    · have hknotk₀ : k ≠ k₀ := by
        intro he
        exact hnd.1 (he ▸ List.mem_map.mpr ⟨(k, nitem), hrest, rfl⟩)
      by_cases hs₀ : skipB curdg (k₀, n₀)
      · rw [upsertPhase_cons_skip uerr curdg rest db hs₀] at hok ⊢
        exact ih db hwkrest hnd.2 hrest hok
      · rcases he : uerr n₀ with _ | tye
        · rw [upsertPhase_cons_write uerr curdg rest db hs₀ he] at hok ⊢
          rw [ih _ hwkrest hnd.2 hrest hok]
          rw [hid]
          exact alookup_dbSet_ne _ db hknotk₀
        · obtain ⟨ty, etext⟩ := tye
          rw [upsertPhase_cons_fail uerr curdg rest db hs₀ he] at hok
          exact absurd hok (by simp)

theorem upsertPhase_alookup_write (uerr : Rec → Option (String × String))
    (curdg : List (PyVal × String)) {items : List (PyVal × Rec)}
    (db : List (PyVal × Rec)) (hwk : WellKeyed items)
    (hnd : (items.map Prod.fst).Nodup) {k : PyVal} {nitem : Rec}
    (hmem : (k, nitem) ∈ items)
    (hok : (upsertPhase uerr curdg items db).err = Option.none)
    (hs : ¬ skipB curdg (k, nitem)) :
    alookup k (upsertPhase uerr curdg items db).db =
      Option.some (upsertRecord nitem) := by
  induction items generalizing db with
  | nil => simp at hmem
  | cons it rest ih =>
    obtain ⟨k₀, n₀⟩ := it
    simp only [List.map_cons, List.nodup_cons] at hnd
    have hwkrest : WellKeyed rest := fun it hm => hwk it (List.mem_cons_of_mem _ hm)
    have hid : getF n₀ "field_of_science_id" = k₀ :=
      hwk (k₀, n₀) (List.mem_cons_self _ _)
    rcases List.mem_cons.mp hmem with hhead | hrest
    · injection hhead with hk hn
      subst hk
      subst hn
      have hknotrest : k ∉ rest.map Prod.fst := hnd.1
      rcases he : uerr nitem with _ | tye
      · rw [upsertPhase_cons_write uerr curdg rest db hs he]
        rw [upsertPhase_alookup_not_mem uerr curdg _ hwkrest hknotrest]
        rw [hid]
        exact alookup_dbSet_self _ _ db
      · obtain ⟨ty, etext⟩ := tye
        rw [upsertPhase_cons_fail uerr curdg rest db hs he] at hok
        exact absurd hok (by simp)
    · have hknotk₀ : k ≠ k₀ := by
        intro he
        exact hnd.1 (he ▸ List.mem_map.mpr ⟨(k, nitem), hrest, rfl⟩)
      by_cases hs₀ : skipB curdg (k₀, n₀)
      · rw [upsertPhase_cons_skip uerr curdg rest db hs₀] at hok ⊢
        exact ih db hwkrest hnd.2 hrest hok
      · rcases he : uerr n₀ with _ | tye
        · rw [upsertPhase_cons_write uerr curdg rest db hs₀ he] at hok ⊢
          exact ih _ hwkrest hnd.2 hrest hok
        · obtain ⟨ty, etext⟩ := tye
          rw [upsertPhase_cons_fail uerr curdg rest db hs₀ he] at hok
          exact absurd hok (by simp)

theorem upsertPhase_stats (uerr : Rec → Option (String × String))
    (curdg : List (PyVal × String)) {items : List (PyVal × Rec)}
    (db : List (PyVal × Rec))
    (hok : (upsertPhase uerr curdg items db).err = Option.none) :
    (upsertPhase uerr curdg items db).s =
        items.countP (fun it => decide (skipB curdg it)) ∧
    (upsertPhase uerr curdg items db).u =
        items.countP (fun it => ! decide (skipB curdg it)) := by
  induction items generalizing db with
  | nil => exact ⟨rfl, rfl⟩
  | cons it rest ih =>
    obtain ⟨k₀, n₀⟩ := it
    by_cases hs : skipB curdg (k₀, n₀)
    · rw [upsertPhase_cons_skip uerr curdg rest db hs] at hok ⊢
      obtain ⟨h1, h2⟩ := ih db hok
      constructor
      · have hc : List.countP (fun it => decide (skipB curdg it)) ((k₀, n₀) :: rest)
            = List.countP (fun it => decide (skipB curdg it)) rest + 1 :=
          List.countP_cons_of_pos _ _ (decide_eq_true hs)
        rw [hc]
        exact congrArg (· + 1) h1
      · have hc : List.countP (fun it => ! decide (skipB curdg it)) ((k₀, n₀) :: rest)
            = List.countP (fun it => ! decide (skipB curdg it)) rest :=
          List.countP_cons_of_neg _ _ (by simp [hs])
        rw [hc]
        exact h2
    · rcases he : uerr n₀ with _ | tye
      · rw [upsertPhase_cons_write uerr curdg rest db hs he] at hok ⊢
        obtain ⟨h1, h2⟩ := ih _ hok
        constructor
        · have hc : List.countP (fun it => decide (skipB curdg it)) ((k₀, n₀) :: rest)
              = List.countP (fun it => decide (skipB curdg it)) rest :=
            List.countP_cons_of_neg _ _ (by simp [hs])
          rw [hc]
          exact h1
        · have hc : List.countP (fun it => ! decide (skipB curdg it)) ((k₀, n₀) :: rest)
              = List.countP (fun it => ! decide (skipB curdg it)) rest + 1 :=
            List.countP_cons_of_pos _ _ (by simp [hs])
          rw [hc]
          exact congrArg (· + 1) h2
      · obtain ⟨ty, etext⟩ := tye
        rw [upsertPhase_cons_fail uerr curdg rest db hs he] at hok
        exact absurd hok (by simp)

theorem upsertPhase_trace (uerr : Rec → Option (String × String))
    (curdg : List (PyVal × String)) {items : List (PyVal × Rec)}
    (db : List (PyVal × Rec)) (hwk : WellKeyed items)
    (hok : (upsertPhase uerr curdg items db).err = Option.none) :
    (upsertPhase uerr curdg items db).tr =
      items.map (fun it =>
        if skipB curdg it then Ev.wskip it.1 else Ev.wupsert it.1) := by
  induction items generalizing db with
  | nil => rfl
  | cons it rest ih =>
    obtain ⟨k₀, n₀⟩ := it
    have hwkrest : WellKeyed rest := fun it hm => hwk it (List.mem_cons_of_mem _ hm)
    have hid : getF n₀ "field_of_science_id" = k₀ :=
      hwk (k₀, n₀) (List.mem_cons_self _ _)
    by_cases hs : skipB curdg (k₀, n₀)
    · rw [upsertPhase_cons_skip uerr curdg rest db hs] at hok ⊢
      simp only [List.map_cons, if_pos hs]
      exact congrArg _ (ih db hwkrest hok)
    · rcases he : uerr n₀ with _ | tye
      · rw [upsertPhase_cons_write uerr curdg rest db hs he] at hok ⊢
        rw [hid] at hok ⊢
        simp only [List.map_cons, if_neg hs]
        exact congrArg _ (ih _ hwkrest hok)
      · obtain ⟨ty, etext⟩ := tye
        rw [upsertPhase_cons_fail uerr curdg rest db hs he] at hok
        exact absurd hok (by simp)

theorem upsertPhase_nodup (uerr : Rec → Option (String × String))
    (curdg : List (PyVal × String)) {items : List (PyVal × Rec)}
    {db : List (PyVal × Rec)} (hnd : (db.map Prod.fst).Nodup) :
    (((upsertPhase uerr curdg items db).db).map Prod.fst).Nodup := by
  induction items generalizing db with
  | nil => exact hnd
  | cons it rest ih =>
    obtain ⟨k₀, n₀⟩ := it
    by_cases hs : skipB curdg (k₀, n₀)
    · rw [upsertPhase_cons_skip uerr curdg rest db hs]
      exact ih hnd
    · rcases he : uerr n₀ with _ | tye
      · rw [upsertPhase_cons_write uerr curdg rest db hs he]
        exact ih (nodup_keys_dbSet _ _ hnd)
      · obtain ⟨ty, etext⟩ := tye
        rw [upsertPhase_cons_fail uerr curdg rest db hs he]
        exact hnd

theorem upsertPhase_fail_msg (uerr : Rec → Option (String × String))
    (curdg : List (PyVal × String)) {items : List (PyVal × Rec)}
    (db : List (PyVal × Rec)) {k : PyVal} {nitem : Rec} {ty etext : String}
    (hmem : (k, nitem) ∈ items) (hns : ¬ skipB curdg (k, nitem))
    (he : uerr nitem = Option.some (ty, etext)) :
    ∃ k1 n1 ty1 e1, (k1, n1) ∈ items ∧ ¬ skipB curdg (k1, n1) ∧
      uerr n1 = Option.some (ty1, e1) ∧
      (upsertPhase uerr curdg items db).err =
        Option.some (failMsg ty1 n1 e1) := by
  induction items generalizing db with
  | nil => simp at hmem
  | cons it rest ih =>
    obtain ⟨k₀, n₀⟩ := it
    by_cases hs : skipB curdg (k₀, n₀)
    · have hrest : (k, nitem) ∈ rest := by
        rcases List.mem_cons.mp hmem with hhead | h
        · injection hhead with hk hn
          subst hk
          subst hn
          exact absurd hs hns
        · exact h
      obtain ⟨k1, n1, ty1, e1, hm1, hs1, he1, herr⟩ := ih db hrest
      rw [upsertPhase_cons_skip uerr curdg rest db hs]
      exact ⟨k1, n1, ty1, e1, List.mem_cons_of_mem _ hm1, hs1, he1, herr⟩
    · rcases he₀ : uerr n₀ with _ | tye
      · have hrest : (k, nitem) ∈ rest := by
          rcases List.mem_cons.mp hmem with hhead | h
          · injection hhead with hk hn
            subst hk
            subst hn
            rw [he₀] at he
            exact Option.noConfusion he
          · exact h
        obtain ⟨k1, n1, ty1, e1, hm1, hs1, he1, herr⟩ := ih _ hrest
        rw [upsertPhase_cons_write uerr curdg rest db hs he₀]
        exact ⟨k1, n1, ty1, e1, List.mem_cons_of_mem _ hm1, hs1, he1, herr⟩
      · obtain ⟨ty₀, e₀⟩ := tye
        rw [upsertPhase_cons_fail uerr curdg rest db hs he₀]
        exact ⟨k₀, n₀, ty₀, e₀, List.mem_cons_self _ _, hs, he₀, rfl⟩

theorem upsertPhase_fail_decomp (uerr : Rec → Option (String × String))
    (curdg : List (PyVal × String)) {pre : List (PyVal × Rec)}
    (post : List (PyVal × Rec)) (db : List (PyVal × Rec))
    {k0 : PyVal} {n0 : Rec} {ty etext : String}
    (hpre : ∀ it ∈ pre, skipB curdg it ∨ uerr it.2 = Option.none)
    (hns : ¬ skipB curdg (k0, n0)) (he : uerr n0 = Option.some (ty, etext)) :
    upsertPhase uerr curdg (pre ++ (k0, n0) :: post) db =
      ⟨(upsertPhase uerr curdg pre db).db,
       (upsertPhase uerr curdg pre db).u,
       (upsertPhase uerr curdg pre db).s,
       (upsertPhase uerr curdg pre db).tr ++
         [Ev.wfail (getF n0 "field_of_science_id")],
       Option.some (failMsg ty n0 etext)⟩ := by
  induction pre generalizing db with
  | nil =>
    rw [List.nil_append]
    rw [upsertPhase_cons_fail uerr curdg post db hns he]
    rfl
  | cons it rest ih =>
    obtain ⟨k₁, n₁⟩ := it
    have hrest : ∀ it ∈ rest, skipB curdg it ∨ uerr it.2 = Option.none :=
      fun it hm => hpre it (List.mem_cons_of_mem _ hm)
    rw [List.cons_append]
    by_cases hs : skipB curdg (k₁, n₁)
    · rw [upsertPhase_cons_skip uerr curdg (rest ++ (k0, n0) :: post) db hs]
      rw [upsertPhase_cons_skip uerr curdg rest db hs]
      rw [ih db hrest]
      rfl
    · rcases hpre (k₁, n₁) (List.mem_cons_self _ _) with h | h
      · exact absurd h hs
      · rw [upsertPhase_cons_write uerr curdg (rest ++ (k0, n0) :: post) db hs h]
        rw [upsertPhase_cons_write uerr curdg rest db hs h]
        rw [ih _ hrest]
        rfl

/-! ### Delete-loop lemmas -/

theorem deletePhase_nil (derr : PyVal → Bool) (newKeys : List PyVal)
    (db : List (PyVal × Rec)) :
    deletePhase derr newKeys [] db = ⟨db, 0, []⟩ := rfl

theorem deletePhase_cons_mem (derr : PyVal → Bool) (newKeys : List PyVal)
    {cur_id : PyVal} (rest : List PyVal) (db : List (PyVal × Rec))
    (h : cur_id ∈ newKeys) :
    deletePhase derr newKeys (cur_id :: rest) db =
      deletePhase derr newKeys rest db := by
  rw [deletePhase, if_pos h]

theorem deletePhase_cons_fail (derr : PyVal → Bool) (newKeys : List PyVal)
    {cur_id : PyVal} (rest : List PyVal) (db : List (PyVal × Rec))
    (h : cur_id ∉ newKeys) (hf : derr cur_id = true) :
    deletePhase derr newKeys (cur_id :: rest) db =
      ⟨(deletePhase derr newKeys rest db).db,
       (deletePhase derr newKeys rest db).d,
       Ev.wdelfail cur_id :: (deletePhase derr newKeys rest db).tr⟩ := by
  rw [deletePhase, if_neg h, if_pos hf]

theorem deletePhase_cons_del (derr : PyVal → Bool) (newKeys : List PyVal)
    {cur_id : PyVal} (rest : List PyVal) (db : List (PyVal × Rec))
    (h : cur_id ∉ newKeys) (hf : derr cur_id = false) :
    deletePhase derr newKeys (cur_id :: rest) db =
      ⟨(deletePhase derr newKeys rest (dbDel cur_id db)).db,
       (deletePhase derr newKeys rest (dbDel cur_id db)).d + 1,
       Ev.wdelete cur_id :: (deletePhase derr newKeys rest (dbDel cur_id db)).tr⟩ := by
  rw [deletePhase, if_neg h]
  rw [if_neg (by simp [hf])]

theorem deletePhase_alookup (derr : PyVal → Bool) (newKeys : List PyVal)
    (curIds : List PyVal) (db : List (PyVal × Rec)) (k : PyVal) :
    alookup k (deletePhase derr newKeys curIds db).db =
      if k ∈ curIds ∧ k ∉ newKeys ∧ derr k = false then Option.none
      else alookup k db := by
  induction curIds generalizing db with
  | nil =>
    rw [deletePhase_nil]
    rw [if_neg (by simp)]
  | cons c rest ih =>
    by_cases hm : c ∈ newKeys
    · rw [deletePhase_cons_mem derr newKeys rest db hm]
      rw [ih db]
      by_cases hk : k ∈ rest ∧ k ∉ newKeys ∧ derr k = false
      · rw [if_pos hk, if_pos ⟨List.mem_cons_of_mem _ hk.1, hk.2⟩]
      · rw [if_neg hk]
        by_cases hk' : k ∈ c :: rest ∧ k ∉ newKeys ∧ derr k = false
        · exfalso
          rcases List.mem_cons.mp hk'.1 with he | hmem
          · exact hk'.2.1 (he ▸ hm)
          · exact hk ⟨hmem, hk'.2⟩
        · rw [if_neg hk']
    · rcases hf : derr c with hfv | hfv
      · rw [deletePhase_cons_del derr newKeys rest db hm hf]
        rw [ih (dbDel c db)]
        by_cases hk : k ∈ rest ∧ k ∉ newKeys ∧ derr k = false
        · rw [if_pos hk, if_pos ⟨List.mem_cons_of_mem _ hk.1, hk.2⟩]
        · rw [if_neg hk]
          by_cases hc : k = c
          · subst hc
            rw [if_pos ⟨List.mem_cons_self _ _, hm, hf⟩]
            exact alookup_dbDel_self k db
          · have : ¬ (k ∈ c :: rest ∧ k ∉ newKeys ∧ derr k = false) := by
              intro hk'
              rcases List.mem_cons.mp hk'.1 with he | hmem
              · exact hc he
              · exact hk ⟨hmem, hk'.2⟩
            rw [if_neg this]
            exact alookup_dbDel_ne db hc
      · rw [deletePhase_cons_fail derr newKeys rest db hm hf]
        rw [ih db]
        by_cases hk : k ∈ rest ∧ k ∉ newKeys ∧ derr k = false
        · rw [if_pos hk, if_pos ⟨List.mem_cons_of_mem _ hk.1, hk.2⟩]
        · rw [if_neg hk]
          have : ¬ (k ∈ c :: rest ∧ k ∉ newKeys ∧ derr k = false) := by
            intro hk'
            rcases List.mem_cons.mp hk'.1 with he | hmem
            · rw [he] at hk'
              rw [hk'.2.2] at hf
              exact Bool.noConfusion hf
            · exact hk ⟨hmem, hk'.2⟩
          rw [if_neg this]

theorem deletePhase_count (derr : PyVal → Bool) (newKeys : List PyVal)
    (curIds : List PyVal) (db : List (PyVal × Rec)) :
    (deletePhase derr newKeys curIds db).d =
      curIds.countP (fun c => decide (c ∉ newKeys ∧ derr c = false)) := by
  induction curIds generalizing db with
  | nil => rfl
  | cons c rest ih =>
    by_cases hm : c ∈ newKeys
    · rw [deletePhase_cons_mem derr newKeys rest db hm]
      rw [ih db]
      have hc : List.countP (fun c => decide (c ∉ newKeys ∧ derr c = false))
          (c :: rest) =
          List.countP (fun c => decide (c ∉ newKeys ∧ derr c = false)) rest :=
        List.countP_cons_of_neg _ _ (by simp [hm])
      rw [hc]
    · rcases hf : derr c with hfv | hfv
      · rw [deletePhase_cons_del derr newKeys rest db hm hf]
        have hc : List.countP (fun c => decide (c ∉ newKeys ∧ derr c = false))
            (c :: rest) =
            List.countP (fun c => decide (c ∉ newKeys ∧ derr c = false)) rest + 1 :=
          List.countP_cons_of_pos _ _ (by simp [hm, hf])
        rw [hc]
        exact congrArg (· + 1) (ih (dbDel c db))
      · rw [deletePhase_cons_fail derr newKeys rest db hm hf]
        have hc : List.countP (fun c => decide (c ∉ newKeys ∧ derr c = false))
            (c :: rest) =
            List.countP (fun c => decide (c ∉ newKeys ∧ derr c = false)) rest :=
          List.countP_cons_of_neg _ _ (by simp [hm, hf])
        rw [hc]
        exact ih db

theorem deletePhase_trace (derr : PyVal → Bool) (newKeys : List PyVal)
    (curIds : List PyVal) (db : List (PyVal × Rec)) :
    (deletePhase derr newKeys curIds db).tr =
      curIds.filterMap (fun c =>
        if c ∈ newKeys then Option.none
        else if derr c then Option.some (Ev.wdelfail c)
        else Option.some (Ev.wdelete c)) := by
  induction curIds generalizing db with
  | nil => rfl
  | cons c rest ih =>
    by_cases hm : c ∈ newKeys
    · rw [deletePhase_cons_mem derr newKeys rest db hm]
      rw [ih db]
      rw [List.filterMap_cons]
      rw [if_pos hm]
    · rcases hf : derr c with hfv | hfv
      · rw [deletePhase_cons_del derr newKeys rest db hm hf]
        rw [List.filterMap_cons, if_neg hm, if_neg (by simp [hf])]
        exact congrArg _ (ih (dbDel c db))
      · rw [deletePhase_cons_fail derr newKeys rest db hm hf]
        rw [List.filterMap_cons, if_neg hm, if_pos (by simp [hf])]
        exact congrArg _ (ih db)

theorem deletePhase_nodup (derr : PyVal → Bool) (newKeys : List PyVal)
    (curIds : List PyVal) {db : List (PyVal × Rec)}
    (hnd : (db.map Prod.fst).Nodup) :
    (((deletePhase derr newKeys curIds db).db).map Prod.fst).Nodup := by
  induction curIds generalizing db with
  | nil => exact hnd
  | cons c rest ih =>
    by_cases hm : c ∈ newKeys
    · rw [deletePhase_cons_mem derr newKeys rest db hm]
      exact ih hnd
    · rcases hf : derr c with hfv | hfv
      · rw [deletePhase_cons_del derr newKeys rest db hm hf]
        exact ih (nodup_keys_dbDel c hnd)
      · rw [deletePhase_cons_fail derr newKeys rest db hm hf]
        exact ih hnd

/-! ### Whole-run reduction lemmas -/

theorem Store_Destination_eq_ok (uerr : Rec → Option (String × String))
    (derr : PyVal → Bool) (new_items : List (PyVal × Rec))
    (db : List (PyVal × Rec))
    (h : (upsertPhase uerr (curDigest db) new_items db).err = Option.none) :
    Store_Destination uerr derr new_items db =
      ⟨(deletePhase derr (new_items.map Prod.fst) (db.map Prod.fst)
          (upsertPhase uerr (curDigest db) new_items db).db).db,
       true, "",
       (upsertPhase uerr (curDigest db) new_items db).u,
       (deletePhase derr (new_items.map Prod.fst) (db.map Prod.fst)
          (upsertPhase uerr (curDigest db) new_items db).db).d,
       (upsertPhase uerr (curDigest db) new_items db).s,
       (upsertPhase uerr (curDigest db) new_items db).tr ++
         (deletePhase derr (new_items.map Prod.fst) (db.map Prod.fst)
            (upsertPhase uerr (curDigest db) new_items db).db).tr⟩ := by
  unfold Store_Destination
  rw [h]

theorem Store_Destination_eq_fail (uerr : Rec → Option (String × String))
    (derr : PyVal → Bool) (new_items : List (PyVal × Rec))
    (db : List (PyVal × Rec)) {m : String}
    (h : (upsertPhase uerr (curDigest db) new_items db).err = Option.some m) :
    Store_Destination uerr derr new_items db =
      ⟨(upsertPhase uerr (curDigest db) new_items db).db,
       false, m,
       (upsertPhase uerr (curDigest db) new_items db).u,
       0,
       (upsertPhase uerr (curDigest db) new_items db).s,
       (upsertPhase uerr (curDigest db) new_items db).tr⟩ := by
  unfold Store_Destination
  rw [h]

/-! ### The six-field data model and value stability

The spec's data model: a record holds the six fields the destination
store persists.  A value is "stable" when it survives the round trip
through `str()` on write (lines 236-239) and none-normalization on the
next read (lines 217-219); raw-kept fields are stable when they are not
a "none"-sentinel string. -/

def stdRec (v1 v2 v3 v4 v5 v6 : PyVal) : Rec :=
  [("field_of_science_id", v1),
   ("parent_field_of_science_id", v2),
   ("field_of_science_desc", v3),
   ("fos_nsf_id", v4),
   ("fos_nsf_abbrev", v5),
   ("is_active", v6)]

theorem stdRec_keys (v1 v2 v3 v4 v5 v6 : PyVal) :
    (stdRec v1 v2 v3 v4 v5 v6).map Prod.fst =
      ["field_of_science_id", "parent_field_of_science_id",
       "field_of_science_desc", "fos_nsf_id", "fos_nsf_abbrev",
       "is_active"] := rfl

theorem stdRec_keys_nodup (v1 v2 v3 v4 v5 v6 : PyVal) :
    ((stdRec v1 v2 v3 v4 v5 v6).map Prod.fst).Nodup := by
  rw [stdRec_keys]
  decide

/-- Stability of a value under the `str()`-store / normalize-read round
trip of the three string-coerced fields. -/
def strStable (v : PyVal) : Prop := normVal (PyVal.str (pyStr v)) = v

instance (v : PyVal) : Decidable (strStable v) :=
  inferInstanceAs (Decidable (_ = _))

/-- A source record of the spec's data model whose values survive the
destination round trip: the three raw-kept fields are unchanged by
normalization and the three `str()`-coerced fields are `strStable`. -/
def StableSix (nitem : Rec) : Prop :=
  ∃ v1 v2 v3 v4 v5 v6, nitem.Perm (stdRec v1 v2 v3 v4 v5 v6) ∧
    normVal v1 = v1 ∧ normVal v2 = v2 ∧ normVal v4 = v4 ∧
    strStable v3 ∧ strStable v5 ∧ strStable v6

theorem StableSix_keys_nodup {nitem : Rec} (h : StableSix nitem) :
    (nitem.map Prod.fst).Nodup := by
  obtain ⟨v1, v2, v3, v4, v5, v6, hperm, -⟩ := h
  exact ((hperm.map Prod.fst).nodup_iff).mpr (stdRec_keys_nodup v1 v2 v3 v4 v5 v6)

theorem stable_fingerprint {nitem : Rec} (h : StableSix nitem) :
    fingerprint (normalizeRec (upsertRecord nitem)) = fingerprint nitem := by
  obtain ⟨v1, v2, v3, v4, v5, v6, hperm, h1, h2, h4, h3, h5, h6⟩ := h
  have hnd : (nitem.map Prod.fst).Nodup :=
    ((hperm.map Prod.fst).nodup_iff).mpr (stdRec_keys_nodup v1 v2 v3 v4 v5 v6)
  have hget : ∀ f, getF nitem f = getF (stdRec v1 v2 v3 v4 v5 v6) f := by
    intro f
    unfold getF
    rw [alookup_perm hnd hperm f]
  have hup : upsertRecord nitem =
      stdRec v1 v2 (PyVal.str (pyStr v3)) v4 (PyVal.str (pyStr v5))
        (PyVal.str (pyStr v6)) := by
    unfold upsertRecord
    rw [hget "field_of_science_id", hget "parent_field_of_science_id",
        hget "field_of_science_desc", hget "fos_nsf_id",
        hget "fos_nsf_abbrev", hget "is_active"]
    rfl
  rw [hup]
  have hnorm : normalizeRec
      (stdRec v1 v2 (PyVal.str (pyStr v3)) v4 (PyVal.str (pyStr v5))
        (PyVal.str (pyStr v6))) =
      stdRec (normVal v1) (normVal v2) (normVal (PyVal.str (pyStr v3)))
        (normVal v4) (normVal (PyVal.str (pyStr v5)))
        (normVal (PyVal.str (pyStr v6))) := rfl
  rw [hnorm, h1, h2, h4, h3, h5, h6]
  exact (fingerprint_perm hnd hperm).symm

/-! ### Retrieve_Source lemmas -/

theorem retrieve_foldl_alookup (cols : List String)
    (rows : List (List PyVal)) (acc : List (PyVal × Rec)) (id : PyVal) :
    alookup id
      (rows.foldl (fun DATA row =>
        dbSet (keyOf cols row) (normAbbrev (rowDict cols row)) DATA) acc) =
      match rows.reverse.find? (fun row => decide (keyOf cols row = id)) with
      | Option.some row => Option.some (normAbbrev (rowDict cols row))
      | Option.none => alookup id acc := by
  induction rows generalizing acc with
  | nil => rfl
  | cons row rest ih =>
    rw [List.foldl_cons, ih]
    rw [List.reverse_cons, List.find?_append]
    rcases hf : rest.reverse.find? (fun row => decide (keyOf cols row = id))
      with _ | r
    · rw [Option.none_or]
      by_cases hk : keyOf cols row = id
      · rw [List.find?_cons_of_pos _ (by simpa using hk)]
        rw [← hk]
        exact alookup_dbSet_self _ _ acc
      · rw [List.find?_cons_of_neg _ (by simpa using hk)]
        show alookup id (dbSet (keyOf cols row) (normAbbrev (rowDict cols row)) acc)
          = alookup id acc
        exact alookup_dbSet_ne _ acc (fun he => hk he.symm)
    · rw [Option.or_some]

theorem retrieve_foldl_mem (cols : List String) (rows : List (List PyVal))
    (acc : List (PyVal × Rec)) (a : PyVal) :
    a ∈ (rows.foldl (fun DATA row =>
        dbSet (keyOf cols row) (normAbbrev (rowDict cols row)) DATA) acc).map
        Prod.fst ↔
      a ∈ acc.map Prod.fst ∨ a ∈ rows.map (keyOf cols) := by
  induction rows generalizing acc with
  | nil => simp
  | cons row rest ih =>
    rw [List.foldl_cons, ih]
    rw [mem_keys_dbSet]
    simp only [List.map_cons, List.mem_cons]
    tauto

theorem retrieve_foldl_nodup (cols : List String) (rows : List (List PyVal))
    {acc : List (PyVal × Rec)} (hnd : (acc.map Prod.fst).Nodup) :
    ((rows.foldl (fun DATA row =>
        dbSet (keyOf cols row) (normAbbrev (rowDict cols row)) DATA)
        acc).map Prod.fst).Nodup := by
  induction rows generalizing acc with
  | nil => exact hnd
  | cons row rest ih =>
    rw [List.foldl_cons]
    exact ih (nodup_keys_dbSet _ _ hnd)

theorem Retrieve_Source_alookup (cols : List String)
    (rows : List (List PyVal)) (id : PyVal) :
    alookup id (Retrieve_Source cols rows) =
      match rows.reverse.find? (fun row => decide (keyOf cols row = id)) with
      | Option.some row => Option.some (normAbbrev (rowDict cols row))
      | Option.none => Option.none := by
  unfold Retrieve_Source
  rw [retrieve_foldl_alookup]
  rcases rows.reverse.find? (fun row => decide (keyOf cols row = id)) with _ | r
  · rfl
  · rfl

theorem Retrieve_Source_length (cols : List String)
    (rows : List (List PyVal)) :
    (Retrieve_Source cols rows).length =
      (rows.map (keyOf cols)).toFinset.card := by
  have hnd : ((Retrieve_Source cols rows).map Prod.fst).Nodup :=
    retrieve_foldl_nodup cols rows (by simp)
  have hmem : ∀ a, a ∈ (Retrieve_Source cols rows).map Prod.fst ↔
      a ∈ rows.map (keyOf cols) := by
    intro a
    unfold Retrieve_Source
    rw [retrieve_foldl_mem]
    simp
  have hfin : ((Retrieve_Source cols rows).map Prod.fst).toFinset =
      (rows.map (keyOf cols)).toFinset := by
    apply Finset.ext
    intro a
    rw [List.mem_toFinset, List.mem_toFinset]
    exact hmem a
  calc (Retrieve_Source cols rows).length
      = ((Retrieve_Source cols rows).map Prod.fst).length :=
        (List.length_map _ _).symm
    _ = ((Retrieve_Source cols rows).map Prod.fst).toFinset.card :=
        (List.toFinset_card_of_nodup hnd).symm
    _ = (rows.map (keyOf cols)).toFinset.card := by rw [hfin]

/-! ### setField lemmas and run-level helpers -/

theorem alookup_setField_self (r : Rec) (k : String) (v : PyVal) :
    alookup k (setField r k v) = (alookup k r).map (fun _ => v) := by
  induction r with
  | nil => rfl
  | cons kv rest ih =>
    by_cases h : kv.1 = k
    · show alookup k ((if kv.1 = k then (k, v) else kv) :: setField rest k v) = _
      rw [if_pos h]
      rw [alookup_cons, alookup_cons, if_pos h]
      simp
    · show alookup k ((if kv.1 = k then (k, v) else kv) :: setField rest k v) = _
      rw [if_neg h]
      rw [alookup_cons, alookup_cons, if_neg h, if_neg h]
      exact ih

theorem alookup_setField_ne (r : Rec) (k : String) (v : PyVal) {f : String}
    (h : f ≠ k) : alookup f (setField r k v) = alookup f r := by
  induction r with
  | nil => rfl
  | cons kv rest ih =>
    by_cases hk : kv.1 = k
    · show alookup f ((if kv.1 = k then (k, v) else kv) :: setField rest k v) = _
      rw [if_pos hk]
      rw [alookup_cons, alookup_cons, if_neg (fun he => h he.symm),
          if_neg (fun he => h (hk ▸ he).symm)]
      exact ih
    · show alookup f ((if kv.1 = k then (k, v) else kv) :: setField rest k v) = _
      rw [if_neg hk]
      rw [alookup_cons, alookup_cons]
      by_cases hf : kv.1 = f
      · rw [if_pos hf, if_pos hf]
      · rw [if_neg hf, if_neg hf]
        exact ih

theorem SD_ok_imp_err_none (uerr : Rec → Option (String × String))
    (derr : PyVal → Bool) (items : List (PyVal × Rec))
    (db : List (PyVal × Rec))
    (hok : (Store_Destination uerr derr items db).ok = true) :
    (upsertPhase uerr (curDigest db) items db).err = Option.none := by
  rcases herr : (upsertPhase uerr (curDigest db) items db).err with _ | m
  · rfl
  · rw [Store_Destination_eq_fail uerr derr items db herr] at hok
    exact Bool.noConfusion hok

/-- Core convergence helper: a run whose upsert loop did not fail, with
no delete failures, leaves the destination keyed exactly by the snapshot
ids, each record fingerprint-matching its source record (stability needed
for freshly written records). -/
theorem SD_converges (uerr : Rec → Option (String × String))
    (derr : PyVal → Bool) (items : List (PyVal × Rec))
    (db : List (PyVal × Rec)) (hwk : WellKeyed items)
    (hnd : (items.map Prod.fst).Nodup) (hdbnd : (db.map Prod.fst).Nodup)
    (hstable : ∀ it ∈ items, StableSix it.2)
    (hderr : ∀ id, derr id = false)
    (herr : (upsertPhase uerr (curDigest db) items db).err = Option.none) :
    (∀ id, (alookup id (Store_Destination uerr derr items db).db).isSome = true ↔
      id ∈ items.map Prod.fst) ∧
    (∀ it ∈ items, ∃ r,
      alookup it.1 (Store_Destination uerr derr items db).db = Option.some r ∧
      fingerprint (normalizeRec r) = fingerprint it.2) ∧
    (((Store_Destination uerr derr items db).db).map Prod.fst).Nodup := by
  rw [Store_Destination_eq_ok uerr derr items db herr]
  have hmemlem : ∀ it ∈ items, ∃ r,
      alookup it.1 (deletePhase derr (items.map Prod.fst) (db.map Prod.fst)
        (upsertPhase uerr (curDigest db) items db).db).db = Option.some r ∧
      fingerprint (normalizeRec r) = fingerprint it.2 := by
    intro it hm
    obtain ⟨k, nitem⟩ := it
    have hkmem : k ∈ items.map Prod.fst := List.mem_map.mpr ⟨(k, nitem), hm, rfl⟩
    have hdel : alookup k (deletePhase derr (items.map Prod.fst)
        (db.map Prod.fst) (upsertPhase uerr (curDigest db) items db).db).db =
        alookup k (upsertPhase uerr (curDigest db) items db).db := by
      rw [deletePhase_alookup]
      rw [if_neg (by
        intro hc
        exact hc.2.1 hkmem)]
    by_cases hh : DestHolds db (k, nitem)
    · have hs : skipB (curDigest db) (k, nitem) :=
        (skipB_iff_DestHolds db _).mpr hh
      have hup := upsertPhase_alookup_skip uerr (curDigest db) db hwk hnd hm herr hs
      unfold DestHolds at hh
      rcases hdb : alookup k db with _ | r
      · rw [hdb] at hh
        exact absurd hh (by simp)
      · rw [hdb] at hh
        refine ⟨r, ?_, hh⟩
        rw [hdel, hup, hdb]
    · have hs : ¬ skipB (curDigest db) (k, nitem) :=
        fun h => hh ((skipB_iff_DestHolds db _).mp h)
      have hup := upsertPhase_alookup_write uerr (curDigest db) db hwk hnd hm herr hs
      refine ⟨upsertRecord nitem, ?_, stable_fingerprint (hstable (k, nitem) hm)⟩
      rw [hdel, hup]
  refine ⟨?_, hmemlem, ?_⟩
  · intro id
    constructor
    · intro hsome
      by_contra hid
      rw [deletePhase_alookup] at hsome
      by_cases hdb : id ∈ db.map Prod.fst
      · rw [if_pos ⟨hdb, hid, hderr id⟩] at hsome
        exact Bool.noConfusion hsome
      · rw [if_neg (by
          intro hc
          exact hdb hc.1)] at hsome
        rw [upsertPhase_alookup_not_mem uerr (curDigest db) db hwk hid] at hsome
        rw [(alookup_eq_none_iff id db).mpr hdb] at hsome
        exact Bool.noConfusion hsome
    · intro hid
      obtain ⟨it, hm, hits⟩ := List.mem_map.mp hid
      obtain ⟨r, hr, -⟩ := hmemlem it hm
      rw [hits] at hr
      rw [hr]
      rfl
  · exact deletePhase_nodup derr _ _ (upsertPhase_nodup uerr (curDigest db) hdbnd)

/-! ### Concrete fixtures for witnesses and counterexamples -/

/-- Oracle: no upsert ever fails. -/
def noUerr : Rec → Option (String × String) := fun _ => Option.none

/-- Oracle: no delete ever fails. -/
def noDerr : PyVal → Bool := fun _ => false

/-- Oracle: every delete fails. -/
def allDerr : PyVal → Bool := fun _ => true

/-- Oracle: every upsert fails with a `DataError`. -/
def allUerr : Rec → Option (String × String) :=
  fun _ => Option.some ("DataError", "value too long")

/-- A source record with a boolean `is_active` (as a boolean column would
be delivered) — not stable under the `str()` round trip. -/
def recPhys : Rec :=
  stdRec (PyVal.int 1) (PyVal.int 0) (PyVal.str "Physics") (PyVal.int 10)
    (PyVal.str "PHY") (PyVal.bool true)

/-- A fully stable source record (null abbreviation, string flag). -/
def recStable : Rec :=
  stdRec (PyVal.int 1) (PyVal.int 0) (PyVal.str "Physics") (PyVal.int 10)
    PyVal.none (PyVal.str "1")

/-- A stable record keyed by an arbitrary id. -/
def recK (n : Int) : Rec :=
  stdRec (PyVal.int n) (PyVal.int 0) (PyVal.str "D") (PyVal.int 5)
    (PyVal.str "AB") (PyVal.str "1")

/-- Oracle: the upsert of the record with id 2 fails, all others succeed. -/
def uerrOn2 : Rec → Option (String × String) :=
  fun r => if getF r "field_of_science_id" = PyVal.int 2
    then Option.some ("IntegrityError", "duplicate key") else Option.none

/-- Oracle: only the delete of id 2 fails. -/
def derrOn2 : PyVal → Bool := fun id => decide (id = PyVal.int 2)

/-! ### Claim theorems -/

/-- C5: the fingerprint of `Store_Destination` (lines 220-223 / 226-228)
is deterministic and independent of the order in which a record's fields
are presented: two records that are equal as mappings (same
name-to-value bindings, duplicate-free names, any order) have equal
digests, because the fields are sorted by name before serialization and
hashing. -/
theorem C5_fingerprint_order_independent (r₁ r₂ : Rec)
    (hnd : (r₁.map Prod.fst).Nodup) (hperm : r₁.Perm r₂) :
    fingerprint r₁ = fingerprint r₂ :=
  fingerprint_perm hnd hperm

/-- Witness for C5 at a concrete pair of reordered records. -/
theorem C5_fingerprint_order_independent_witness :
    ((([("b", PyVal.int 1), ("a", PyVal.int 2)] : Rec).map Prod.fst).Nodup ∧
     ([("b", PyVal.int 1), ("a", PyVal.int 2)] : Rec).Perm
       [("a", PyVal.int 2), ("b", PyVal.int 1)]) ∧
    fingerprint [("b", PyVal.int 1), ("a", PyVal.int 2)] =
      fingerprint [("a", PyVal.int 2), ("b", PyVal.int 1)] :=
  ⟨⟨by decide, List.Perm.swap _ _ _⟩,
   C5_fingerprint_order_independent _ _ (by decide) (List.Perm.swap _ _ _)⟩

/-- C10: `Retrieve_Source` (lines 195-203) keys its result dict by the
`field_of_science_id` column; when several rows carry the same id, the
returned binding is the one of the last such row (earlier rows are
silently overwritten), and the size of the mapping is the number of
distinct ids, not the number of rows. -/
theorem C10_last_row_wins (cols : List String) (rows : List (List PyVal))
    (hcol : "field_of_science_id" ∈ cols) (hndcols : cols.Nodup)
    (hrows : ∀ row ∈ rows, row.length = cols.length) :
    (∀ id, alookup id (Retrieve_Source cols rows) =
      match rows.reverse.find? (fun row => decide (keyOf cols row = id)) with
      | Option.some row => Option.some (normAbbrev (rowDict cols row))
      | Option.none => Option.none) ∧
    (Retrieve_Source cols rows).length =
      (rows.map (keyOf cols)).toFinset.card :=
  ⟨fun id => Retrieve_Source_alookup cols rows id,
   Retrieve_Source_length cols rows⟩

/-- Witness for C10: two rows share id 1, a third has id 2; the mapping
holds the second row's data under id 1 and has size 2, not 3. -/
theorem C10_last_row_wins_witness :
    alookup (PyVal.int 1)
      (Retrieve_Source ["field_of_science_id", "fos_nsf_abbrev"]
        [[PyVal.int 1, PyVal.str "A"], [PyVal.int 1, PyVal.str "B"],
         [PyVal.int 2, PyVal.str "C"]]) =
      Option.some [("field_of_science_id", PyVal.int 1),
                   ("fos_nsf_abbrev", PyVal.str "B")] ∧
    (Retrieve_Source ["field_of_science_id", "fos_nsf_abbrev"]
        [[PyVal.int 1, PyVal.str "A"], [PyVal.int 1, PyVal.str "B"],
         [PyVal.int 2, PyVal.str "C"]]).length = 2 := by
  obtain ⟨h1, h2⟩ := C10_last_row_wins
    ["field_of_science_id", "fos_nsf_abbrev"]
    [[PyVal.int 1, PyVal.str "A"], [PyVal.int 1, PyVal.str "B"],
     [PyVal.int 2, PyVal.str "C"]]
    (by decide) (by decide) (by decide)
  constructor
  · rw [h1 (PyVal.int 1)]
    decide
  · rw [h2]
    decide

/-- C6: an upsert that raises a data/integrity error (oracle `uerr`) on a
record the destination does not already hold with a matching fingerprint
is caught inside `Store_Destination` (the function totally returns), the
run result is `(False, msg)` where the message is the line 247-248
message naming a failing record's id, and the run is never reported
successful. -/
theorem C6_upsert_failure (uerr : Rec → Option (String × String))
    (derr : PyVal → Bool) (items : List (PyVal × Rec))
    (db : List (PyVal × Rec)) {k : PyVal} {nitem : Rec} {ty etext : String}
    (hmem : (k, nitem) ∈ items) (hns : ¬ DestHolds db (k, nitem))
    (he : uerr nitem = Option.some (ty, etext)) :
    (Store_Destination uerr derr items db).ok = false ∧
    ∃ k1 n1 ty1 e1, (k1, n1) ∈ items ∧ ¬ DestHolds db (k1, n1) ∧
      uerr n1 = Option.some (ty1, e1) ∧
      (Store_Destination uerr derr items db).msg = failMsg ty1 n1 e1 := by
  have hns' : ¬ skipB (curDigest db) (k, nitem) :=
    fun h => hns ((skipB_iff_DestHolds db _).mp h)
  obtain ⟨k1, n1, ty1, e1, hm1, hs1, he1, herr⟩ :=
    upsertPhase_fail_msg uerr (curDigest db) db hmem hns' he
  rw [Store_Destination_eq_fail uerr derr items db herr]
  exact ⟨rfl, k1, n1, ty1, e1, hm1,
    fun h => hs1 ((skipB_iff_DestHolds db _).mpr h), he1, rfl⟩

/-- Witness for C6: one fresh record whose upsert fails. -/
theorem C6_upsert_failure_witness :
    (Store_Destination allUerr noDerr [(PyVal.int 1, recK 1)] []).ok = false ∧
    ∃ k1 n1 ty1 e1, (k1, n1) ∈ [(PyVal.int 1, recK 1)] ∧
      ¬ DestHolds [] (k1, n1) ∧ allUerr n1 = Option.some (ty1, e1) ∧
      (Store_Destination allUerr noDerr [(PyVal.int 1, recK 1)] []).msg =
        failMsg ty1 n1 e1 :=
  C6_upsert_failure allUerr noDerr [(PyVal.int 1, recK 1)] []
    (List.mem_cons_self _ _) (by decide) rfl

/-- C7: a data/integrity error while deleting a stale destination record
(lines 259-261) is logged for that record, does not abort the run, does
not prevent the remaining deletions, and the run still returns `True`
(the success flag is independent of delete failures). -/
theorem C7_delete_failure (uerr : Rec → Option (String × String))
    (derr : PyVal → Bool) (items : List (PyVal × Rec))
    (db : List (PyVal × Rec)) (hwk : WellKeyed items)
    (huerr : ∀ r, uerr r = Option.none) :
    (Store_Destination uerr derr items db).ok = true ∧
    (∀ id, id ∈ db.map Prod.fst → id ∉ items.map Prod.fst →
      (derr id = false →
        alookup id (Store_Destination uerr derr items db).db = Option.none) ∧
      (derr id = true →
        Ev.wdelfail id ∈ (Store_Destination uerr derr items db).tr ∧
        alookup id (Store_Destination uerr derr items db).db = alookup id db)) := by
  have herr : (upsertPhase uerr (curDigest db) items db).err = Option.none :=
    upsertPhase_err_eq_none uerr (curDigest db) db
      (fun it _ => Or.inr (huerr it.2))
  rw [Store_Destination_eq_ok uerr derr items db herr]
  refine ⟨rfl, ?_⟩
  intro id hdb hid
  constructor
  · intro hdf
    show alookup id (deletePhase derr (items.map Prod.fst) (db.map Prod.fst)
      (upsertPhase uerr (curDigest db) items db).db).db = Option.none
    rw [deletePhase_alookup]
    rw [if_pos ⟨hdb, hid, hdf⟩]
  · intro hdf
    constructor
    · apply List.mem_append_right
      rw [deletePhase_trace]
      apply List.mem_filterMap.mpr
      refine ⟨id, hdb, ?_⟩
      rw [if_neg hid, if_pos hdf]
    · show alookup id (deletePhase derr (items.map Prod.fst) (db.map Prod.fst)
        (upsertPhase uerr (curDigest db) items db).db).db = alookup id db
      rw [deletePhase_alookup]
      rw [if_neg (by
        intro hc
        rw [hdf] at hc
        exact Bool.noConfusion hc.2.2)]
      exact upsertPhase_alookup_not_mem uerr (curDigest db) db hwk hid

/-- Witness for C7: stale ids 2 and 3; deleting id 2 fails, id 3 is
still deleted and the run succeeds. -/
theorem C7_delete_failure_witness :
    (Store_Destination noUerr derrOn2 [(PyVal.int 1, recK 1)]
        [(PyVal.int 2, recK 2), (PyVal.int 3, recK 3)]).ok = true ∧
    alookup (PyVal.int 3) (Store_Destination noUerr derrOn2
        [(PyVal.int 1, recK 1)]
        [(PyVal.int 2, recK 2), (PyVal.int 3, recK 3)]).db = Option.none ∧
    Ev.wdelfail (PyVal.int 2) ∈ (Store_Destination noUerr derrOn2
        [(PyVal.int 1, recK 1)]
        [(PyVal.int 2, recK 2), (PyVal.int 3, recK 3)]).tr ∧
    alookup (PyVal.int 2) (Store_Destination noUerr derrOn2
        [(PyVal.int 1, recK 1)]
        [(PyVal.int 2, recK 2), (PyVal.int 3, recK 3)]).db =
      Option.some (recK 2) := by
  obtain ⟨hok, hdel⟩ := C7_delete_failure noUerr derrOn2
    [(PyVal.int 1, recK 1)] [(PyVal.int 2, recK 2), (PyVal.int 3, recK 3)]
    (by decide) (fun _ => rfl)
  refine ⟨hok, ?_, ?_, ?_⟩
  · exact (hdel (PyVal.int 3) (by decide) (by decide)).1 (by decide)
  · exact ((hdel (PyVal.int 2) (by decide) (by decide)).2 (by decide)).1
  · exact (((hdel (PyVal.int 2) (by decide) (by decide)).2 (by decide)).2).trans
      (by decide)

/-- C8: `Store_Destination` is fail-fast — at the first upsert that
raises a data/integrity error it returns at once: the records processed
before it contribute only skip/upsert events, no later record is
written, the deletion loop is never entered (`deletes = 0`, no delete
events), and every destination id absent from the snapshot keeps its
record. -/
theorem C8_fail_fast (uerr : Rec → Option (String × String))
    (derr : PyVal → Bool) (pre post : List (PyVal × Rec))
    (db : List (PyVal × Rec)) {k0 : PyVal} {n0 : Rec} {ty etext : String}
    (hwk : WellKeyed (pre ++ (k0, n0) :: post))
    (hpre : ∀ it ∈ pre, DestHolds db it ∨ uerr it.2 = Option.none)
    (hns : ¬ DestHolds db (k0, n0))
    (he : uerr n0 = Option.some (ty, etext)) :
    (Store_Destination uerr derr (pre ++ (k0, n0) :: post) db).ok = false ∧
    (Store_Destination uerr derr (pre ++ (k0, n0) :: post) db).deletes = 0 ∧
    (Store_Destination uerr derr (pre ++ (k0, n0) :: post) db).tr =
      (pre.map (fun it =>
        if DestHolds db it then Ev.wskip it.1 else Ev.wupsert it.1)) ++
      [Ev.wfail k0] ∧
    (∀ id, id ∉ (pre ++ (k0, n0) :: post).map Prod.fst →
      alookup id
        (Store_Destination uerr derr (pre ++ (k0, n0) :: post) db).db =
        alookup id db) := by
  have hwkpre : WellKeyed pre := fun it hm => hwk it (List.mem_append_left _ hm)
  have hid0 : getF n0 "field_of_science_id" = k0 :=
    hwk (k0, n0) (List.mem_append_right _ (List.mem_cons_self _ _))
  have hpre' : ∀ it ∈ pre, skipB (curDigest db) it ∨ uerr it.2 = Option.none := by
    intro it hm
    rcases hpre it hm with h | h
    · exact Or.inl ((skipB_iff_DestHolds db it).mpr h)
    · exact Or.inr h
  have hns' : ¬ skipB (curDigest db) (k0, n0) :=
    fun h => hns ((skipB_iff_DestHolds db _).mp h)
  have hdec := upsertPhase_fail_decomp uerr (curDigest db) post db hpre' hns' he
  have herr : (upsertPhase uerr (curDigest db)
      (pre ++ (k0, n0) :: post) db).err =
      Option.some (failMsg ty n0 etext) := by rw [hdec]
  rw [Store_Destination_eq_fail uerr derr _ db herr]
  refine ⟨rfl, rfl, ?_, ?_⟩
  · show (upsertPhase uerr (curDigest db) (pre ++ (k0, n0) :: post) db).tr = _
    rw [hdec]
    show (upsertPhase uerr (curDigest db) pre db).tr ++
      [Ev.wfail (getF n0 "field_of_science_id")] = _
    rw [hid0]
    have hpreerr : (upsertPhase uerr (curDigest db) pre db).err = Option.none :=
      upsertPhase_err_eq_none uerr (curDigest db) db hpre'
    rw [upsertPhase_trace uerr (curDigest db) db hwkpre hpreerr]
    congr 1
    apply List.map_congr_left
    intro it hm
    by_cases h : DestHolds db it
    · rw [if_pos ((skipB_iff_DestHolds db it).mpr h), if_pos h]
    · rw [if_neg (fun hs => h ((skipB_iff_DestHolds db it).mp hs)), if_neg h]
  · intro id hid
    show alookup id (upsertPhase uerr (curDigest db)
      (pre ++ (k0, n0) :: post) db).db = _
    rw [hdec]
    show alookup id (upsertPhase uerr (curDigest db) pre db).db = _
    refine upsertPhase_alookup_not_mem uerr (curDigest db) db hwkpre ?_
    intro hm
    apply hid
    rw [List.map_append]
    exact List.mem_append_left _ hm

/-- Witness for C8: id 1 is upserted, id 2 fails, id 3 is never written,
the stale id 9 survives, no deletions happen. -/
theorem C8_fail_fast_witness :
    (Store_Destination uerrOn2 noDerr
      ([(PyVal.int 1, recK 1)] ++ (PyVal.int 2, recK 2) ::
        [(PyVal.int 3, recK 3)]) [(PyVal.int 9, recK 9)]).ok = false ∧
    (Store_Destination uerrOn2 noDerr
      ([(PyVal.int 1, recK 1)] ++ (PyVal.int 2, recK 2) ::
        [(PyVal.int 3, recK 3)]) [(PyVal.int 9, recK 9)]).deletes = 0 ∧
    (Store_Destination uerrOn2 noDerr
      ([(PyVal.int 1, recK 1)] ++ (PyVal.int 2, recK 2) ::
        [(PyVal.int 3, recK 3)]) [(PyVal.int 9, recK 9)]).tr =
      [Ev.wupsert (PyVal.int 1), Ev.wfail (PyVal.int 2)] ∧
    alookup (PyVal.int 9) (Store_Destination uerrOn2 noDerr
      ([(PyVal.int 1, recK 1)] ++ (PyVal.int 2, recK 2) ::
        [(PyVal.int 3, recK 3)]) [(PyVal.int 9, recK 9)]).db =
      Option.some (recK 9) := by
  obtain ⟨h1, h2, h3, h4⟩ := @C8_fail_fast uerrOn2 noDerr
    [(PyVal.int 1, recK 1)] [(PyVal.int 3, recK 3)] [(PyVal.int 9, recK 9)]
    (PyVal.int 2) (recK 2) "IntegrityError" "duplicate key"
    (by decide) (by decide) (by decide) (by decide)
  refine ⟨h1, h2, ?_, ?_⟩
  · rw [h3]
    decide
  · exact (h4 (PyVal.int 9) (by decide)).trans (by decide)

/-- C9: an upserted record's `field_of_science_desc`, `fos_nsf_abbrev`
and `is_active` are passed through `str()` (lines 236-239): the stored
record holds their string renderings, so a null `fos_nsf_abbrev`
(including one produced by the normalization in `Retrieve_Source`) is
stored as the literal string "None", and a boolean `is_active` is stored
as "True"/"False". -/
theorem C9_str_coercion (uerr : Rec → Option (String × String))
    (derr : PyVal → Bool) (items : List (PyVal × Rec))
    (db : List (PyVal × Rec)) (hwk : WellKeyed items)
    (hnd : (items.map Prod.fst).Nodup) {k : PyVal} {nitem : Rec}
    (hmem : (k, nitem) ∈ items) (hns : ¬ DestHolds db (k, nitem))
    (hok : (Store_Destination uerr derr items db).ok = true) :
    alookup k (Store_Destination uerr derr items db).db =
      Option.some (upsertRecord nitem) ∧
    alookup "field_of_science_desc" (upsertRecord nitem) =
      Option.some (PyVal.str (pyStr (getF nitem "field_of_science_desc"))) ∧
    alookup "fos_nsf_abbrev" (upsertRecord nitem) =
      Option.some (PyVal.str (pyStr (getF nitem "fos_nsf_abbrev"))) ∧
    alookup "is_active" (upsertRecord nitem) =
      Option.some (PyVal.str (pyStr (getF nitem "is_active"))) ∧
    (getF nitem "fos_nsf_abbrev" = PyVal.none →
      alookup "fos_nsf_abbrev" (upsertRecord nitem) =
        Option.some (PyVal.str "None")) ∧
    (∀ b, getF nitem "is_active" = PyVal.bool b →
      alookup "is_active" (upsertRecord nitem) =
        Option.some (PyVal.str (if b then "True" else "False"))) := by
  have herr := SD_ok_imp_err_none uerr derr items db hok
  have hs : ¬ skipB (curDigest db) (k, nitem) :=
    fun h => hns ((skipB_iff_DestHolds db _).mp h)
  have hup := upsertPhase_alookup_write uerr (curDigest db) db hwk hnd hmem herr hs
  refine ⟨?_, rfl, rfl, rfl, ?_, ?_⟩
  · rw [Store_Destination_eq_ok uerr derr items db herr]
    show alookup k (deletePhase derr (items.map Prod.fst) (db.map Prod.fst)
      (upsertPhase uerr (curDigest db) items db).db).db = _
    rw [deletePhase_alookup]
    rw [if_neg (by
      intro hc
      exact hc.2.1 (List.mem_map.mpr ⟨(k, nitem), hmem, rfl⟩))]
    exact hup
  · intro habs
    rw [show alookup "fos_nsf_abbrev" (upsertRecord nitem) =
      Option.some (PyVal.str (pyStr (getF nitem "fos_nsf_abbrev"))) from rfl]
    rw [habs]
    rfl
  · intro b hb
    rw [show alookup "is_active" (upsertRecord nitem) =
      Option.some (PyVal.str (pyStr (getF nitem "is_active"))) from rfl]
    rw [hb]
    cases b
    · rfl
    · rfl

/-- Witness for C9 at a source record with null abbreviation and boolean
active flag. -/
theorem C9_str_coercion_witness :
    alookup (PyVal.int 1) (Store_Destination noUerr noDerr
        [(PyVal.int 1, recPhys)] []).db = Option.some (upsertRecord recPhys) ∧
    alookup "is_active" (upsertRecord recPhys) =
      Option.some (PyVal.str "True") ∧
    alookup "fos_nsf_abbrev" (upsertRecord recStable) =
      Option.some (PyVal.str "None") := by
  obtain ⟨h1, -, -, -, -, h6⟩ := C9_str_coercion noUerr noDerr
    [(PyVal.int 1, recPhys)] [] (by decide) (by decide)
    (List.mem_cons_self _ _) (by decide) (by decide)
  refine ⟨h1, ?_, ?_⟩
  · exact h6 true (by decide)
  · decide

/-- C3: for a well-keyed, duplicate-free snapshot and a failure-free
run, each snapshot record is skipped (no write, counted in `skips`)
exactly when the destination already holds its id with an equal
fingerprint, and is otherwise written whole as `upsertRecord` under its
id — created or overwritten — and counted in `updates`; every
destination id absent from the snapshot is deleted and counted in
`deletes`; and the write trace is all upserts/skips followed by all
deletes. -/
theorem C3_reconcile (uerr : Rec → Option (String × String))
    (derr : PyVal → Bool) (items : List (PyVal × Rec))
    (db : List (PyVal × Rec)) (hwk : WellKeyed items)
    (hnd : (items.map Prod.fst).Nodup) (hdbnd : (db.map Prod.fst).Nodup)
    (huerr : ∀ r, uerr r = Option.none) (hderr : ∀ id, derr id = false) :
    (Store_Destination uerr derr items db).ok = true ∧
    (∀ it ∈ items,
      (DestHolds db it →
        alookup it.1 (Store_Destination uerr derr items db).db =
          alookup it.1 db) ∧
      (¬ DestHolds db it →
        alookup it.1 (Store_Destination uerr derr items db).db =
          Option.some (upsertRecord it.2))) ∧
    (Store_Destination uerr derr items db).skips =
      items.countP (fun it => decide (DestHolds db it)) ∧
    (Store_Destination uerr derr items db).updates =
      items.countP (fun it => ! decide (DestHolds db it)) ∧
    (∀ id ∈ db.map Prod.fst, id ∉ items.map Prod.fst →
      alookup id (Store_Destination uerr derr items db).db = Option.none) ∧
    (Store_Destination uerr derr items db).deletes =
      (db.map Prod.fst).countP
        (fun id => ! decide (id ∈ items.map Prod.fst)) ∧
    (∃ t1 t2, (Store_Destination uerr derr items db).tr = t1 ++ t2 ∧
      (∀ e ∈ t1, (∃ i, e = Ev.wskip i) ∨ (∃ i, e = Ev.wupsert i)) ∧
      (∀ e ∈ t2, ∃ i, e = Ev.wdelete i)) := by
  have herr : (upsertPhase uerr (curDigest db) items db).err = Option.none :=
    upsertPhase_err_eq_none uerr (curDigest db) db
      (fun it _ => Or.inr (huerr it.2))
  have hpoint : ∀ it ∈ items,
      decide (skipB (curDigest db) it) = decide (DestHolds db it) :=
    fun it _ => decide_eq_decide.mpr (skipB_iff_DestHolds db it)
  rw [Store_Destination_eq_ok uerr derr items db herr]
  refine ⟨rfl, ?_, ?_, ?_, ?_, ?_, ?_⟩
  · intro it hm
    obtain ⟨k, nitem⟩ := it
    have hdel : alookup k (deletePhase derr (items.map Prod.fst)
        (db.map Prod.fst) (upsertPhase uerr (curDigest db) items db).db).db =
        alookup k (upsertPhase uerr (curDigest db) items db).db := by
      rw [deletePhase_alookup]
      rw [if_neg (by
        intro hc
        exact hc.2.1 (List.mem_map.mpr ⟨(k, nitem), hm, rfl⟩))]
    constructor
    · intro hh
      show alookup k (deletePhase derr (items.map Prod.fst) (db.map Prod.fst)
        (upsertPhase uerr (curDigest db) items db).db).db = _
      rw [hdel]
      exact upsertPhase_alookup_skip uerr (curDigest db) db hwk hnd hm herr
        ((skipB_iff_DestHolds db _).mpr hh)
    · intro hh
      show alookup k (deletePhase derr (items.map Prod.fst) (db.map Prod.fst)
        (upsertPhase uerr (curDigest db) items db).db).db = _
      rw [hdel]
      exact upsertPhase_alookup_write uerr (curDigest db) db hwk hnd hm herr
        (fun h => hh ((skipB_iff_DestHolds db _).mp h))
  · rw [(upsertPhase_stats uerr (curDigest db) db herr).1]
    exact List.countP_congr (fun it hm => by rw [hpoint it hm])
  · rw [(upsertPhase_stats uerr (curDigest db) db herr).2]
    exact List.countP_congr (fun it hm => by rw [hpoint it hm])
  · intro id hdb hid
    show alookup id (deletePhase derr (items.map Prod.fst) (db.map Prod.fst)
      (upsertPhase uerr (curDigest db) items db).db).db = _
    rw [deletePhase_alookup]
    rw [if_pos ⟨hdb, hid, hderr id⟩]
  · show (deletePhase derr (items.map Prod.fst) (db.map Prod.fst)
      (upsertPhase uerr (curDigest db) items db).db).d = _
    rw [deletePhase_count]
    apply List.countP_congr
    intro c _
    rw [hderr c]
    simp
  · refine ⟨(upsertPhase uerr (curDigest db) items db).tr,
      (deletePhase derr (items.map Prod.fst) (db.map Prod.fst)
        (upsertPhase uerr (curDigest db) items db).db).tr, rfl, ?_, ?_⟩
    · intro e he
      rw [upsertPhase_trace uerr (curDigest db) db hwk herr] at he
      obtain ⟨it, -, heq⟩ := List.mem_map.mp he
      by_cases h : skipB (curDigest db) it
      · rw [if_pos h] at heq
        exact Or.inl ⟨it.1, heq.symm⟩
      · rw [if_neg h] at heq
        exact Or.inr ⟨it.1, heq.symm⟩
    · intro e he
      rw [deletePhase_trace] at he
      obtain ⟨c, -, heq⟩ := List.mem_filterMap.mp he
      by_cases hm : c ∈ items.map Prod.fst
      · rw [if_pos hm] at heq
        exact Option.noConfusion heq
      · rw [if_neg hm, hderr c] at heq
        refine ⟨c, ?_⟩
        have : Option.some (Ev.wdelete c) = Option.some e := by
          simpa using heq
        exact (Option.some.injEq _ _ ▸ this).symm

/-- Witness for C3: one matching record skipped, one new record written,
one stale record deleted. -/
theorem C3_reconcile_witness :
    (Store_Destination noUerr noDerr
      [(PyVal.int 1, recK 1), (PyVal.int 2, recK 2)]
      [(PyVal.int 1, upsertRecord (recK 1)), (PyVal.int 9, recK 9)]).ok
        = true ∧
    (Store_Destination noUerr noDerr
      [(PyVal.int 1, recK 1), (PyVal.int 2, recK 2)]
      [(PyVal.int 1, upsertRecord (recK 1)), (PyVal.int 9, recK 9)]).skips
        = 1 ∧
    (Store_Destination noUerr noDerr
      [(PyVal.int 1, recK 1), (PyVal.int 2, recK 2)]
      [(PyVal.int 1, upsertRecord (recK 1)), (PyVal.int 9, recK 9)]).updates
        = 1 ∧
    (Store_Destination noUerr noDerr
      [(PyVal.int 1, recK 1), (PyVal.int 2, recK 2)]
      [(PyVal.int 1, upsertRecord (recK 1)), (PyVal.int 9, recK 9)]).deletes
        = 1 ∧
    alookup (PyVal.int 2) (Store_Destination noUerr noDerr
      [(PyVal.int 1, recK 1), (PyVal.int 2, recK 2)]
      [(PyVal.int 1, upsertRecord (recK 1)), (PyVal.int 9, recK 9)]).db =
        Option.some (upsertRecord (recK 2)) ∧
    alookup (PyVal.int 9) (Store_Destination noUerr noDerr
      [(PyVal.int 1, recK 1), (PyVal.int 2, recK 2)]
      [(PyVal.int 1, upsertRecord (recK 1)), (PyVal.int 9, recK 9)]).db =
        Option.none := by
  obtain ⟨h1, h2, h3, h4, h5, h6, -⟩ := C3_reconcile noUerr noDerr
    [(PyVal.int 1, recK 1), (PyVal.int 2, recK 2)]
    [(PyVal.int 1, upsertRecord (recK 1)), (PyVal.int 9, recK 9)]
    (by decide) (by decide) (by decide) (fun _ => rfl) (fun _ => rfl)
  refine ⟨h1, ?_, ?_, ?_, ?_, ?_⟩
  · rw [h3]
    decide
  · rw [h4]
    decide
  · rw [h6]
    decide
  · exact ((h2 (PyVal.int 2, recK 2) (by decide)).2 (by decide))
  · exact h5 (PyVal.int 9) (by decide) (by decide)

/-- Counterexample to C1 as stated: (a) a swallowed delete failure lets
`Store_Destination` return `True` while a destination id absent from the
snapshot survives, so the id sets differ after a successful run; (b) with
a boolean `is_active`, a successful run stores a record whose
destination-side fingerprint differs from the source record's. -/
theorem C1_counterexample :
    (Store_Destination noUerr allDerr [] [(PyVal.int 2, recPhys)]).ok = true ∧
    alookup (PyVal.int 2)
      (Store_Destination noUerr allDerr [] [(PyVal.int 2, recPhys)]).db =
      Option.some recPhys ∧
    (Store_Destination noUerr noDerr [(PyVal.int 1, recPhys)] []).ok = true ∧
    alookup (PyVal.int 1)
      (Store_Destination noUerr noDerr [(PyVal.int 1, recPhys)] []).db =
      Option.some (upsertRecord recPhys) ∧
    fingerprint (normalizeRec (upsertRecord recPhys)) ≠ fingerprint recPhys := by
  refine ⟨?_, ?_, ?_, ?_, ?_⟩
  · decide
  · decide
  · decide
  · decide
  · decide

/-- C1 (amended): after a run of `Store_Destination` that returns `True`
in which no delete failed, on a well-keyed duplicate-free snapshot whose
records carry the six model fields with values stable under the
`str()`-store / none-normalize round trip, the destination ids equal the
snapshot ids and every destination record's normalized fingerprint
equals its source record's fingerprint. -/
theorem C1_convergence_amended (uerr : Rec → Option (String × String))
    (derr : PyVal → Bool) (items : List (PyVal × Rec))
    (db : List (PyVal × Rec)) (hwk : WellKeyed items)
    (hnd : (items.map Prod.fst).Nodup) (hdbnd : (db.map Prod.fst).Nodup)
    (hstable : ∀ it ∈ items, StableSix it.2)
    (hderr : ∀ id, derr id = false)
    (hok : (Store_Destination uerr derr items db).ok = true) :
    (∀ id, (alookup id (Store_Destination uerr derr items db).db).isSome =
      true ↔ id ∈ items.map Prod.fst) ∧
    (∀ it ∈ items, ∃ r,
      alookup it.1 (Store_Destination uerr derr items db).db =
        Option.some r ∧
      fingerprint (normalizeRec r) = fingerprint it.2) := by
  have herr := SD_ok_imp_err_none uerr derr items db hok
  obtain ⟨h1, h2, -⟩ :=
    SD_converges uerr derr items db hwk hnd hdbnd hstable hderr herr
  exact ⟨h1, h2⟩

/-- Witness for the amended C1 at a stable one-record snapshot. -/
theorem C1_convergence_amended_witness :
    (alookup (PyVal.int 1) (Store_Destination noUerr noDerr
      [(PyVal.int 1, recStable)] []).db).isSome = true ∧
    (∃ r, alookup (PyVal.int 1) (Store_Destination noUerr noDerr
        [(PyVal.int 1, recStable)] []).db = Option.some r ∧
      fingerprint (normalizeRec r) = fingerprint recStable) := by
  obtain ⟨h1, h2⟩ := C1_convergence_amended noUerr noDerr
    [(PyVal.int 1, recStable)] [] (by decide) (by decide) (by decide)
    (by
      intro it hm
      have : it = (PyVal.int 1, recStable) := by
        simpa using hm
      rw [this]
      exact ⟨PyVal.int 1, PyVal.int 0, PyVal.str "Physics", PyVal.int 10,
        PyVal.none, PyVal.str "1", List.Perm.refl _,
        by decide, by decide, by decide, by decide, by decide, by decide⟩)
    (fun _ => rfl) (by decide)
  exact ⟨(h1 (PyVal.int 1)).mpr (by decide),
    h2 (PyVal.int 1, recStable) (List.mem_cons_self _ _)⟩

/-- Counterexample to C2 as stated: with a boolean `is_active` the
second back-to-back run re-updates the record instead of skipping it. -/
theorem C2_counterexample :
    (Store_Destination noUerr noDerr [(PyVal.int 1, recPhys)]
      (Store_Destination noUerr noDerr [(PyVal.int 1, recPhys)] []).db).updates
      = 1 ∧
    (Store_Destination noUerr noDerr [(PyVal.int 1, recPhys)]
      (Store_Destination noUerr noDerr [(PyVal.int 1, recPhys)] []).db).skips
      = 0 := by
  constructor
  · decide
  · decide

/-- C2 (amended): for a fixed well-keyed, duplicate-free, stable
snapshot and failure-free oracles, running `Store_Destination` twice
back-to-back yields zero updates and zero deletes on the second run,
whose skip count equals the number of destination records. -/
theorem C2_idempotent_amended (uerr : Rec → Option (String × String))
    (derr : PyVal → Bool) (items : List (PyVal × Rec))
    (db : List (PyVal × Rec)) (hwk : WellKeyed items)
    (hnd : (items.map Prod.fst).Nodup) (hdbnd : (db.map Prod.fst).Nodup)
    (hstable : ∀ it ∈ items, StableSix it.2)
    (huerr : ∀ r, uerr r = Option.none) (hderr : ∀ id, derr id = false) :
    (Store_Destination uerr derr items
      (Store_Destination uerr derr items db).db).updates = 0 ∧
    (Store_Destination uerr derr items
      (Store_Destination uerr derr items db).db).deletes = 0 ∧
    (Store_Destination uerr derr items
      (Store_Destination uerr derr items db).db).skips =
      (Store_Destination uerr derr items db).db.length := by
  have herr1 : (upsertPhase uerr (curDigest db) items db).err = Option.none :=
    upsertPhase_err_eq_none uerr (curDigest db) db
      (fun it _ => Or.inr (huerr it.2))
  obtain ⟨h1, h2, hnd1⟩ :=
    SD_converges uerr derr items db hwk hnd hdbnd hstable hderr herr1
  have hallskip : ∀ it ∈ items,
      skipB (curDigest (Store_Destination uerr derr items db).db) it := by
    intro it hm
    obtain ⟨r, hr, hfp⟩ := h2 it hm
    show fingerprint it.2 = _
    rw [alookup_curDigest, hr]
    exact hfp.symm
  have hmem1 : ∀ id,
      id ∈ ((Store_Destination uerr derr items db).db).map Prod.fst ↔
      id ∈ items.map Prod.fst := by
    intro id
    rw [← alookup_isSome_iff id (Store_Destination uerr derr items db).db]
    exact h1 id
  have herr2 : (upsertPhase uerr
      (curDigest (Store_Destination uerr derr items db).db) items
      (Store_Destination uerr derr items db).db).err = Option.none :=
    upsertPhase_err_eq_none uerr _ _ (fun it _ => Or.inr (huerr it.2))
  rw [Store_Destination_eq_ok uerr derr items
    (Store_Destination uerr derr items db).db herr2]
  refine ⟨?_, ?_, ?_⟩
  · show (upsertPhase uerr _ items _).u = 0
    rw [(upsertPhase_stats uerr _ _ herr2).2]
    rw [List.countP_eq_zero]
    intro it hm
    simp [hallskip it hm]
  · show (deletePhase derr (items.map Prod.fst) _ _).d = 0
    rw [deletePhase_count]
    rw [List.countP_eq_zero]
    intro id hm
    simp only [decide_eq_true_eq, not_and]
    intro hnot
    exact absurd ((hmem1 id).mp hm) hnot
  · show (upsertPhase uerr _ items _).s = _
    rw [(upsertPhase_stats uerr _ _ herr2).1]
    have hlen : List.countP
        (fun it => decide (skipB
          (curDigest (Store_Destination uerr derr items db).db) it)) items =
        items.length := by
      rw [List.countP_eq_length]
      intro it hm
      exact decide_eq_true (hallskip it hm)
    rw [hlen]
    have hperm : ((Store_Destination uerr derr items db).db.map
        Prod.fst).Perm (items.map Prod.fst) :=
      (List.perm_ext_iff_of_nodup hnd1 hnd).mpr hmem1
    calc items.length = (items.map Prod.fst).length :=
          (List.length_map _ _).symm
      _ = ((Store_Destination uerr derr items db).db.map Prod.fst).length :=
          hperm.length_eq.symm
      _ = (Store_Destination uerr derr items db).db.length :=
          List.length_map _ _

/-- Witness for the amended C2 at a stable one-record snapshot. -/
theorem C2_idempotent_amended_witness :
    (Store_Destination noUerr noDerr [(PyVal.int 1, recStable)]
      (Store_Destination noUerr noDerr [(PyVal.int 1, recStable)] []).db).updates
      = 0 ∧
    (Store_Destination noUerr noDerr [(PyVal.int 1, recStable)]
      (Store_Destination noUerr noDerr [(PyVal.int 1, recStable)] []).db).deletes
      = 0 ∧
    (Store_Destination noUerr noDerr [(PyVal.int 1, recStable)]
      (Store_Destination noUerr noDerr [(PyVal.int 1, recStable)] []).db).skips
      = (Store_Destination noUerr noDerr [(PyVal.int 1, recStable)] []).db.length :=
  C2_idempotent_amended noUerr noDerr [(PyVal.int 1, recStable)] []
    (by decide) (by decide) (by decide)
    (by
      intro it hm
      have : it = (PyVal.int 1, recStable) := by
        simpa using hm
      rw [this]
      exact ⟨PyVal.int 1, PyVal.int 0, PyVal.str "Physics", PyVal.int 10,
        PyVal.none, PyVal.str "1", List.Perm.refl _,
        by decide, by decide, by decide, by decide, by decide, by decide⟩)
    (fun _ => rfl) (fun _ => rfl)

/-- Counterexample to C4 as stated: `Retrieve_Source` does not normalize
every field — a `field_of_science_desc` holding "None" is returned
unchanged (only `fos_nsf_abbrev` is normalized), and the raw source-side
fingerprint used by `Store_Destination` (line 226-228) distinguishes the
"None" string from an absent value. -/
theorem C4_counterexample :
    alookup (PyVal.int 1)
      (Retrieve_Source
        ["field_of_science_id", "field_of_science_desc", "fos_nsf_abbrev"]
        [[PyVal.int 1, PyVal.str "None", PyVal.str "AB"]]) =
      Option.some [("field_of_science_id", PyVal.int 1),
                   ("field_of_science_desc", PyVal.str "None"),
                   ("fos_nsf_abbrev", PyVal.str "AB")] ∧
    fingerprint [("field_of_science_desc", PyVal.str "None")] ≠
      fingerprint [("field_of_science_desc", PyVal.none)] := by
  constructor
  · decide
  · decide

/-- C4 (amended): the "none"-to-null normalization before fingerprinting
is applied to every field of destination-derived records (the digests
computed by `Store_Destination` use `normalizeRec`, under which any
case-insensitive "none" string fingerprints like a null), but in
`Retrieve_Source` only the `fos_nsf_abbrev` field is normalized and no
other field is touched. -/
theorem C4_normalization_amended :
    (∀ (p q : Rec) (f s : String), lowerStr s = "none" →
      fingerprint (normalizeRec (p ++ (f, PyVal.str s) :: q)) =
        fingerprint (normalizeRec (p ++ (f, PyVal.none) :: q))) ∧
    (∀ (db : List (PyVal × Rec)) (k : PyVal),
      alookup k (curDigest db) =
        (alookup k db).map (fun r => fingerprint (normalizeRec r))) ∧
    (∀ (r : Rec) (v : PyVal), alookup "fos_nsf_abbrev" r = Option.some v →
      isNoneStr v = true →
      alookup "fos_nsf_abbrev" (normAbbrev r) = Option.some PyVal.none) ∧
    (∀ (r : Rec) (f : String), f ≠ "fos_nsf_abbrev" →
      alookup f (normAbbrev r) = alookup f r) := by
  refine ⟨?_, ?_, ?_, ?_⟩
  · intro p q f s h
    have heq : normalizeRec (p ++ (f, PyVal.str s) :: q) =
        normalizeRec (p ++ (f, PyVal.none) :: q) := by
      simp [normalizeRec, normVal, isNoneStr, h]
    rw [heq]
  · exact alookup_curDigest
  · intro r v hv hn
    unfold normAbbrev
    rw [hv]
    show alookup "fos_nsf_abbrev" (if isNoneStr v = true
      then setField r "fos_nsf_abbrev" PyVal.none else r) =
      Option.some PyVal.none
    rw [if_pos hn]
    rw [alookup_setField_self, hv]
    rfl
  · intro r f h
    unfold normAbbrev
    rcases ha : alookup "fos_nsf_abbrev" r with _ | v
    · rfl
    · show alookup f (if isNoneStr v = true
        then setField r "fos_nsf_abbrev" PyVal.none else r) = alookup f r
      by_cases hn : isNoneStr v
      · rw [if_pos hn]
        exact alookup_setField_ne r _ _ h
      · rw [if_neg hn]

/-- Witness for the amended C4: an any-cased "none" in an arbitrary
field fingerprints like null on the destination side, and
`Retrieve_Source`'s normalization maps an any-cased abbreviation
sentinel to null. -/
theorem C4_normalization_amended_witness :
    fingerprint (normalizeRec
      ([] ++ ("field_of_science_desc", PyVal.str "NoNe") :: [])) =
      fingerprint (normalizeRec
        ([] ++ ("field_of_science_desc", PyVal.none) :: [])) ∧
    alookup "fos_nsf_abbrev"
      (normAbbrev [("fos_nsf_abbrev", PyVal.str "NONE")]) =
      Option.some PyVal.none := by
  obtain ⟨h1, -, h3, -⟩ := C4_normalization_amended
  exact ⟨h1 [] [] "field_of_science_desc" "NoNe" (by decide),
    h3 [("fos_nsf_abbrev", PyVal.str "NONE")] (PyVal.str "NONE") rfl
      (by decide)⟩
